import Mathlib

/-!
Verification of the red-black tree engine of `koketama/redblacktree`
(`redblacktree.go`, engine part: `package redblacktree` with `Tree`, `Node`,
`Put`, `Get`, `Remove`, `Left`, `Right`, `Floor`, `Ceiling`, `Clear`,
`insertCase1..5`, `deleteCase1..6`, `rotateLeft`, `rotateRight`,
`replaceNode`, `nodeColor`).

Embedding notes.
* Keys are embedded as `Int` with the semantics of `utils.IntComparator`
  (the comparator used by every test of the repository): `comparator a b`
  is negative / zero / positive exactly as in Go.
* `Value` is the Go interface `{ ID() string; String() string }`: a record
  with an identity string and a display string.  De-duplication compares
  `ID()` only, as in the source.
* The Go engine works on heap nodes with mutable `left/right/parent`
  pointers.  The embedding replaces the `parent` pointer with a zipper
  context `Ctx`: a focused node together with the path of parent frames up
  to the root.  Each frame stores the parent's color, key, value list and
  the sibling subtree, so `parent`, `sibling()`, `uncle()` and
  `grandparent()` of the source become frame inspections, and
  `rotateLeft` / `rotateRight` / `replaceNode` become local frame rewrites
  (commented at each use site).
* `size` is a Go `int`; it is embedded as `Int` (the operations only add 1
  or subtract a value-list length, far from overflow).
-/

set_option maxHeartbeats 1000000

namespace RBT

/-- Go: `type color bool; black, red = true, false`. -/
inductive Color where
  | red : Color
  | black : Color
deriving DecidableEq, Repr

/-- Go: `type Value interface { ID() string; String() string }`. -/
structure Value where
  id : String
  display : String
deriving DecidableEq, Repr

/-- Go `Node` (without the parent pointer, which the zipper `Ctx` replaces):
`key`, `values`, `color`, `left`, `right`.  `nil` is the absent child. -/
inductive RBNode where
  | nil : RBNode
  | node (color : Color) (left : RBNode) (key : Int) (values : List Value)
      (right : RBNode) : RBNode
deriving DecidableEq, Repr

namespace RBNode

/-- Go `nodeColor`: `nil` counts as black. -/
def nodeColor : RBNode → Color
  | nil => Color.black
  | node c _ _ _ _ => c

/-- Go `node.color = x` on a materialized node (`nil` has no color field;
the source never recolors a nil node). -/
def setColor : RBNode → Color → RBNode
  | nil, _ => nil
  | node _ l k vs r, c => node c l k vs r

/-- Go `tree.rotateLeft(node)` restricted to the subtree rooted at `node`:
the right child becomes the subtree root.  `replaceNode` is implicit (the
caller puts the result back where `node` was).  The source dereferences
`node.right`, so the shape `node _ _ _ _ (node ..)` is the only one that
occurs; other shapes are returned unchanged. -/
def rotateLeft : RBNode → RBNode
  | node c a k vs (node rc rl rk rvs rr) =>
      node rc (node c a k vs rl) rk rvs rr
  | t => t

/-- Go `tree.rotateRight(node)` restricted to the subtree rooted at `node`. -/
def rotateRight : RBNode → RBNode
  | node c (node lc ll lk lvs lr) k vs b =>
      node lc ll lk lvs (node c lr k vs b)
  | t => t

/-- In-order traversal: the list of (key, value-list) pairs in comparator
order.  This is the walk of the repository's `Iterator` (ascending-key
in-order traversal; the iterator implementation itself lives in
`internal/pkg` and is not under `src/`, its walk is modelled from the spec:
"in-order (ascending-key) traversal"). -/
def inorder : RBNode → List (Int × List Value)
  | nil => []
  | node _ l k vs r => inorder l ++ (k, vs) :: inorder r

/-- The keys of the tree in in-order. -/
def keysOf (t : RBNode) : List Int := (inorder t).map Prod.fst

/-- Sum of the value-list lengths over all nodes (what the spec calls the
meaning of `size`). -/
def sumVals : RBNode → Int
  | nil => 0
  | node _ l _ vs r => sumVals l + vs.length + sumVals r

/-- Boolean binary-search-tree order check: at every node, all keys of the
left subtree are smaller and all keys of the right subtree are larger. -/
def orderedB : RBNode → Bool
  | nil => true
  | node _ l k _ r =>
      (decide (∀ k' ∈ keysOf l, k' < k)) &&
      (decide (∀ k' ∈ keysOf r, k < k')) && orderedB l && orderedB r

/-- No red node has a red child (one of the claim's three coloring
invariants). -/
def noRedRed : RBNode → Bool
  | nil => true
  | node c l _ _ r =>
      (c = Color.black || (nodeColor l = Color.black && nodeColor r = Color.black))
        && noRedRed l && noRedRed r

/-- Black-height checker: `some h` when every path from the root to a
descendant nil leaf passes through the same number `h` of black nodes,
`none` when the black-height is not uniform somewhere in the subtree. -/
def bhAll : RBNode → Option Nat
  | nil => some 0
  | node c l _ _ r =>
      match bhAll l, bhAll r with
      | some a, some b =>
          if a = b then some (if c = Color.black then a + 1 else a) else none
      | _, _ => none

/-- Every node's value list is non-empty. -/
def valsNonempty : RBNode → Bool
  | nil => true
  | node _ l _ vs r => !vs.isEmpty && valsNonempty l && valsNonempty r

end RBNode

open RBNode

/-- The zipper context of a focused node: the chain of parent frames.
`left pc pk pvs sib up` means the focus is the *left* child of a parent
with color `pc`, key `pk`, values `pvs`, whose right child is `sib`;
`right` is the mirror.  This replaces the Go `parent` pointer. -/
inductive Ctx where
  | top : Ctx
  | left (pcolor : Color) (pkey : Int) (pvals : List Value) (sib : RBNode)
      (up : Ctx) : Ctx
  | right (sib : RBNode) (pcolor : Color) (pkey : Int) (pvals : List Value)
      (up : Ctx) : Ctx
deriving DecidableEq, Repr

namespace Ctx

/-- Rebuild the whole tree from a context and the focused subtree. -/
def plug : Ctx → RBNode → RBNode
  | top, t => t
  | left pc pk pvs sib up, t => plug up (RBNode.node pc t pk pvs sib)
  | right sib pc pk pvs up, t => plug up (RBNode.node pc sib pk pvs t)

/-- Number of frames (distance of the focus from the root). -/
def len : Ctx → Nat
  | top => 0
  | left _ _ _ _ up => len up + 1
  | right _ _ _ _ up => len up + 1

/-- Go `nodeColor(node.parent)` read through the context: a nil parent
(the focus is the root) counts as black. -/
def parentColor : Ctx → Color
  | top => Color.black
  | left pc _ _ _ _ => pc
  | right _ pc _ _ _ => pc

/-- The in-order pairs of the surrounding tree that precede the hole. -/
def before : Ctx → List (Int × List Value)
  | top => []
  | left _ _ _ _ up => before up
  | right sib _ pk pvs up => before up ++ inorder sib ++ [(pk, pvs)]

/-- The in-order pairs of the surrounding tree that follow the hole. -/
def after : Ctx → List (Int × List Value)
  | top => []
  | left _ pk pvs sib up => (pk, pvs) :: inorder sib ++ after up
  | right _ _ _ _ up => after up

theorem inorder_plug : ∀ (ctx : Ctx) (t : RBNode),
    inorder (ctx.plug t) = ctx.before ++ inorder t ++ ctx.after
  | top, t => by simp [plug, before, after]
  | left pc pk pvs sib up, t => by
      simp [plug, before, after, inorder_plug up, inorder]
  | right sib pc pk pvs up, t => by
      simp [plug, before, after, inorder_plug up, inorder]

end Ctx

open Ctx

/-- The semantics of `utils.IntComparator` from `emirpasic/gods`, the
comparator the repository's tests install: negative, zero, positive as the
first key is smaller, equal, larger. -/
def comparator (a b : Int) : Int :=
  if a < b then -1 else if b < a then 1 else 0

theorem comparator_eq_zero {a b : Int} : comparator a b = 0 ↔ a = b := by
  unfold comparator; split <;> rename_i h
  · omega
  · split <;> rename_i h2 <;> omega

theorem comparator_lt_zero {a b : Int} : comparator a b < 0 ↔ a < b := by
  unfold comparator; split <;> rename_i h
  · omega
  · split <;> rename_i h2 <;> omega

theorem comparator_gt_zero {a b : Int} : 0 < comparator a b ↔ b < a := by
  unfold comparator; split <;> rename_i h
  · omega
  · split <;> rename_i h2 <;> omega

/-- Go `node.left` as read by the fix-up chains (`sibling.left` etc.);
reading a child of `nil` is a nil-pointer dereference in Go and is modelled
as `nil` (the fix-up lemmas show those reads never happen on balanced
trees, because siblings there are never `nil`). -/
def leftOf : RBNode → RBNode
  | RBNode.nil => RBNode.nil
  | RBNode.node _ l _ _ _ => l

/-- Go `node.right`, with the same convention as `leftOf`. -/
def rightOf : RBNode → RBNode
  | RBNode.nil => RBNode.nil
  | RBNode.node _ _ _ _ r => r

/-! ### Insertion fix-up (`insertCase1` .. `insertCase5`)

The Go functions walk parent pointers; here the focus node `n` is carried
together with its context.  `node.parent` is the innermost frame,
`node.grandparent()` the next one, `node.uncle()` the grandparent frame's
sibling subtree, exactly as in the source's helper functions.  Cases 4 and
5 are defined first because Lean needs definitions before use; the source
order 1,2,3,4,5 is otherwise kept. -/

/-- Go `insertCase5`: recolor the parent black and the grandparent red,
then rotate the grandparent away from the node's side when node and parent
are aligned.  The result is the whole tree (the fix-up chain ends here). -/
def insertCase5 (n : RBNode) (ctx : Ctx) : RBNode :=
  match ctx with
  | Ctx.left _pc pk pvs psib (Ctx.left _gc gk gvs gsib up2) =>
      -- node is the parent's left child and the parent is the
      -- grandparent's left child: `tree.rotateRight(grandparent)`
      up2.plug (rotateRight (RBNode.node Color.red
        (RBNode.node Color.black n pk pvs psib) gk gvs gsib))
  | Ctx.right psib _pc pk pvs (Ctx.right gsib _gc gk gvs up2) =>
      -- mirrored: `tree.rotateLeft(grandparent)`
      up2.plug (rotateLeft (RBNode.node Color.red gsib gk gvs
        (RBNode.node Color.black psib pk pvs n)))
  | Ctx.left _pc pk pvs psib (Ctx.right gsib _gc gk gvs up2) =>
      -- zig-zag shapes: recolor only (no branch of the source's `if` fires)
      up2.plug (RBNode.node Color.red gsib gk gvs
        (RBNode.node Color.black n pk pvs psib))
  | Ctx.right psib _pc pk pvs (Ctx.left _gc gk gvs gsib up2) =>
      up2.plug (RBNode.node Color.red
        (RBNode.node Color.black psib pk pvs n) gk gvs gsib)
  | _ =>
      -- fewer than two frames: the source would dereference a nil
      -- grandparent; unreachable from `insertCase4`
      ctx.plug n

/-- Go `insertCase4`: if the node is an inner ("zig-zag") grandchild,
rotate the parent away from the zig-zag and re-target the node to the
former parent (`node = node.left` resp. `node = node.right`), then fall
into `insertCase5`. -/
def insertCase4 (n : RBNode) (ctx : Ctx) : RBNode :=
  match ctx with
  | Ctx.right psib pc pk pvs (Ctx.left gc gk gvs gsib up2) =>
      -- node is the parent's right child, parent is the grandparent's left
      -- child: `tree.rotateLeft(node.parent); node = node.left`
      (match n with
       | RBNode.node nc nl nk nvs nr =>
           insertCase5 (RBNode.node pc psib pk pvs nl)
             (Ctx.left nc nk nvs nr (Ctx.left gc gk gvs gsib up2))
       | RBNode.nil =>
           -- the inserted node is never nil; Go would nil-panic in rotateLeft
           (Ctx.right psib pc pk pvs (Ctx.left gc gk gvs gsib up2)).plug n)
  | Ctx.left pc pk pvs psib (Ctx.right gsib gc gk gvs up2) =>
      -- mirrored: `tree.rotateRight(node.parent); node = node.right`
      (match n with
       | RBNode.node nc nl nk nvs nr =>
           insertCase5 (RBNode.node pc nr pk pvs psib)
             (Ctx.right nl nc nk nvs (Ctx.right gsib gc gk gvs up2))
       | RBNode.nil =>
           (Ctx.left pc pk pvs psib (Ctx.right gsib gc gk gvs up2)).plug n)
  | _ =>
      -- aligned (or degenerate) shapes: no rotation, straight to case 5
      insertCase5 n ctx

mutual

/-- Go `insertCase1`: at the root, recolor the node black; otherwise go to
case 2. -/
def insertCase1 (n : RBNode) (ctx : Ctx) : RBNode :=
  if ctx = Ctx.top then setColor n Color.black else insertCase2 n ctx
termination_by 3 * ctx.len + 2
decreasing_by all_goals first | omega | (simp only [Ctx.len]; omega)

/-- Go `insertCase2`: a black parent (`nodeColor(node.parent)`, the
`parentColor` of the context) means the invariant already holds (the built
tree is returned unchanged); otherwise case 3. -/
def insertCase2 (n : RBNode) (ctx : Ctx) : RBNode :=
  if Ctx.parentColor ctx = Color.black then ctx.plug n else insertCase3 n ctx
termination_by 3 * ctx.len + 1
decreasing_by all_goals first | omega | (simp only [Ctx.len]; omega)

/-- Go `insertCase3`: a red uncle is recolored black along with the parent,
the grandparent becomes red and the fix-up recurses from the grandparent;
a black uncle goes to case 4.  The uncle is the grandparent frame's sibling
subtree. -/
def insertCase3 (n : RBNode) (ctx : Ctx) : RBNode :=
  match ctx with
  | Ctx.left _pc pk pvs psib (Ctx.left _gc gk gvs gsib up2) =>
      (match gsib with
       | RBNode.node Color.red ul uk uvs ur =>
           insertCase1 (RBNode.node Color.red
             (RBNode.node Color.black n pk pvs psib) gk gvs
             (RBNode.node Color.black ul uk uvs ur)) up2
       | _ => insertCase4 n ctx)
  | Ctx.left _pc pk pvs psib (Ctx.right gsib _gc gk gvs up2) =>
      (match gsib with
       | RBNode.node Color.red ul uk uvs ur =>
           insertCase1 (RBNode.node Color.red
             (RBNode.node Color.black ul uk uvs ur) gk gvs
             (RBNode.node Color.black n pk pvs psib)) up2
       | _ => insertCase4 n ctx)
  | Ctx.right psib _pc pk pvs (Ctx.left _gc gk gvs gsib up2) =>
      (match gsib with
       | RBNode.node Color.red ul uk uvs ur =>
           insertCase1 (RBNode.node Color.red
             (RBNode.node Color.black psib pk pvs n) gk gvs
             (RBNode.node Color.black ul uk uvs ur)) up2
       | _ => insertCase4 n ctx)
  | Ctx.right psib _pc pk pvs (Ctx.right gsib _gc gk gvs up2) =>
      (match gsib with
       | RBNode.node Color.red ul uk uvs ur =>
           insertCase1 (RBNode.node Color.red
             (RBNode.node Color.black ul uk uvs ur) gk gvs
             (RBNode.node Color.black psib pk pvs n)) up2
       | _ => insertCase4 n ctx)
  | _ =>
      -- no grandparent: `uncle()` is nil, `nodeColor(nil)` is black → case 4
      insertCase4 n ctx
termination_by 3 * ctx.len
decreasing_by all_goals first | omega | (simp only [Ctx.len]; omega)

end

/-- The descent loop of Go `Tree.Put`, as structural recursion: reaching an
absent child creates a new red node there and starts the insertion fix-up;
an equal key appends the value unless its identity is already present.
Returns the new whole tree and the size increment.  The source's empty-root
branch (create the root red, then `insertCase1` recolors it black)
coincides with the `nil`-at-`Ctx.top` case. -/
def putAt : RBNode → Ctx → Int → Value → RBNode × Int
  | RBNode.nil, ctx, key, value =>
      (insertCase1 (RBNode.node Color.red RBNode.nil key [value] RBNode.nil) ctx, 1)
  | RBNode.node c l k vs r, ctx, key, value =>
      let cmp := comparator key k
      if cmp = 0 then
        if vs.any (fun v => v.id = value.id) then
          (ctx.plug (RBNode.node c l k vs r), 0)  -- duplicated identity: no-op
        else
          (ctx.plug (RBNode.node c l k (vs ++ [value]) r), 1)
      else if cmp < 0 then
        putAt l (Ctx.left c k vs r ctx) key value
      else
        putAt r (Ctx.right l c k vs ctx) key value

/-- Go `Tree` (root and size; the comparator is fixed to
`utils.IntComparator`, see `comparator`). -/
structure Tree where
  root : RBNode
  size : Int
deriving DecidableEq, Repr

/-- The tree returned by `NewWith` with a non-nil comparator. -/
def emptyTree : Tree := ⟨RBNode.nil, 0⟩

/-- Go `Tree.Put` after its nil guard (the guard is `Tree.putG`).  The
source increments `size` before linking the node; the net effect is the
returned increment. -/
def Tree.put (t : Tree) (key : Int) (value : Value) : Tree :=
  let p := putAt t.root Ctx.top key value
  { root := p.1, size := t.size + p.2 }

/-- Go `Tree.Put` including the `if key == nil || value == nil { return }`
guard: absent arguments are modelled as `none`. -/
def Tree.putG (t : Tree) (key : Option Int) (value : Option Value) : Tree :=
  match key, value with
  | some k, some v => t.put k v
  | _, _ => t

/-- Go `tree.lookup`, with the found node's value list extracted as in
`Tree.Get`. -/
def lookup : RBNode → Int → Option (List Value)
  | RBNode.nil, _ => none
  | RBNode.node _ l k vs r, key =>
      let cmp := comparator key k
      if cmp = 0 then some vs
      else if cmp < 0 then lookup l key
      else lookup r key

/-- Go `Tree.Get` including its nil-key guard: `none` models
`(nil, false)`, `some vs` models `(vs, true)`. -/
def Tree.get (t : Tree) (key : Option Int) : Option (List Value) :=
  match key with
  | none => none
  | some k => lookup t.root k

/-- Go `tree.lookup` again, keeping the context of the found node (the
source reaches the node's surroundings through its parent pointer). -/
def lookupZip : RBNode → Ctx → Int → Option (RBNode × Ctx)
  | RBNode.nil, _, _ => none
  | RBNode.node c l k vs r, ctx, key =>
      let cmp := comparator key k
      if cmp = 0 then some (RBNode.node c l k vs r, ctx)
      else if cmp < 0 then lookupZip l (Ctx.left c k vs r ctx) key
      else lookupZip r (Ctx.right l c k vs ctx) key

/-- Go `node.maximumNode`: follow `right` links. -/
def maximumNode : RBNode → RBNode
  | RBNode.nil => RBNode.nil
  | RBNode.node c l k vs RBNode.nil => RBNode.node c l k vs RBNode.nil
  | RBNode.node _ _ _ _ (RBNode.node rc rl rk rvs rr) =>
      maximumNode (RBNode.node rc rl rk rvs rr)

/-- The all-right descent of `maximumNode` keeping the context. -/
def maxZip : RBNode → Ctx → RBNode × Ctx
  | RBNode.nil, ctx => (RBNode.nil, ctx)
  | RBNode.node c l k vs RBNode.nil, ctx => (RBNode.node c l k vs RBNode.nil, ctx)
  | RBNode.node c l k vs (RBNode.node rc rl rk rvs rr), ctx =>
      maxZip (RBNode.node rc rl rk rvs rr) (Ctx.right l c k vs ctx)

/-! ### Deletion fix-up (`deleteCase1` .. `deleteCase6`)

The node carrying the "double-black" deficiency is never read or modified
by the six cases (they inspect only its parent, sibling and nephews), so
each case is a transformation of the node's context.  `deleteCase3`
recurses toward the root; the recursion is bounded by a fuel argument that
`Tree.remove` instantiates with one more than the context length, which the
fix-up lemmas show is never exhausted on balanced trees.  Cases 4, 5, 6
come first (definition before use), the source order is otherwise kept. -/

/-- Go `deleteCase6`: the sibling takes the parent's color, the parent
becomes black; a red far nephew becomes black and the parent is rotated
toward the node's side.  The source's second branch
(`else if nodeColor(sibling.left) == red`) does not re-test the node's
orientation; when the node is the parent's left child and only the near
nephew is red, that branch rotates the parent right through the focus node
itself, tearing it apart — the node the caller subsequently splices out
then sits at the parent's former position, so that branch is rendered as
`up`.  The fix-up lemmas show it is unreachable on balanced trees. -/
def deleteCase6 : Ctx → Ctx
  | Ctx.top => Ctx.top  -- unreachable: the source would dereference a nil sibling
  | Ctx.left pc pk pvs sib up =>
      (match sib with
       | RBNode.node _sc sl sk svs (RBNode.node Color.red srl srk srvs srr) =>
           -- far nephew red: `sibling.right.color = black; rotateLeft(node.parent)`
           Ctx.left Color.black pk pvs sl
             (Ctx.left pc sk svs (RBNode.node Color.black srl srk srvs srr) up)
       | RBNode.node _sc (RBNode.node Color.red _sll _slk _slvs _slr) _sk _svs _sr =>
           up  -- the tearing branch described above
       | _ =>
           Ctx.left Color.black pk pvs (setColor sib pc) up)
  | Ctx.right sib pc pk pvs up =>
      (match sib with
       | RBNode.node _sc (RBNode.node Color.red sll slk slvs slr) sk svs sr =>
           -- `sibling.left.color = black; rotateRight(node.parent)`; the
           -- sibling already took the parent's color
           Ctx.right sr Color.black pk pvs
             (Ctx.right (RBNode.node Color.black sll slk slvs slr) pc sk svs up)
       | _ =>
           Ctx.right (setColor sib pc) Color.black pk pvs up)

/-- Go `deleteCase5`: sibling black with red near nephew and black far
nephew → rotate the sibling away from the node's side after recoloring,
then always fall into case 6. -/
def deleteCase5 (ctx : Ctx) : Ctx :=
  match ctx with
  | Ctx.left pc pk pvs sib up =>
      if nodeColor sib = Color.black ∧ nodeColor (leftOf sib) = Color.red ∧
          nodeColor (rightOf sib) = Color.black then
        (match sib with
         | RBNode.node _ sl sk svs sr =>
             -- `sibling.color = red; sibling.left.color = black; rotateRight(sibling)`
             deleteCase6 (Ctx.left pc pk pvs
               (rotateRight (RBNode.node Color.red (setColor sl Color.black) sk svs sr)) up)
         | RBNode.nil => deleteCase6 ctx)  -- unreachable: `leftOf nil` is never red
      else deleteCase6 ctx
  | Ctx.right sib pc pk pvs up =>
      if nodeColor sib = Color.black ∧ nodeColor (rightOf sib) = Color.red ∧
          nodeColor (leftOf sib) = Color.black then
        (match sib with
         | RBNode.node _ sl sk svs sr =>
             -- `sibling.color = red; sibling.right.color = black; rotateLeft(sibling)`
             deleteCase6 (Ctx.right
               (rotateLeft (RBNode.node Color.red sl sk svs (setColor sr Color.black)))
               pc pk pvs up)
         | RBNode.nil => deleteCase6 ctx)
      else deleteCase6 ctx
  | Ctx.top => deleteCase6 Ctx.top  -- unreachable

/-- Go `deleteCase4`: red parent with black sibling whose children are both
black → recolor sibling red and parent black, done; otherwise case 5. -/
def deleteCase4 (ctx : Ctx) : Ctx :=
  match ctx with
  | Ctx.left pc pk pvs sib up =>
      if pc = Color.red ∧ nodeColor sib = Color.black ∧
          nodeColor (leftOf sib) = Color.black ∧ nodeColor (rightOf sib) = Color.black then
        Ctx.left Color.black pk pvs (setColor sib Color.red) up
      else deleteCase5 ctx
  | Ctx.right sib pc pk pvs up =>
      if pc = Color.red ∧ nodeColor sib = Color.black ∧
          nodeColor (leftOf sib) = Color.black ∧ nodeColor (rightOf sib) = Color.black then
        Ctx.right (setColor sib Color.red) Color.black pk pvs up
      else deleteCase5 ctx
  | Ctx.top => deleteCase5 Ctx.top  -- `nodeColor(nil parent)` is black: condition fails

mutual

/-- Go `deleteCase1`: at the root the deficiency is absorbed; otherwise
case 2. -/
def deleteCase1 (fuel : Nat) (ctx : Ctx) : Ctx :=
  match ctx with
  | Ctx.top => Ctx.top
  | _ => deleteCase2 fuel ctx
termination_by 3 * fuel + 2

/-- Go `deleteCase2`: a red sibling is rotated up (parent becomes red,
sibling black, rotate the parent toward the node's side), then case 3. -/
def deleteCase2 (fuel : Nat) (ctx : Ctx) : Ctx :=
  match ctx with
  | Ctx.top => Ctx.top  -- unreachable: case 1 handled the root
  | Ctx.left pc pk pvs sib up =>
      (match sib with
       | RBNode.node Color.red sl sk svs sr =>
           -- `node.parent.color = red; sibling.color = black; rotateLeft(node.parent)`
           deleteCase3 fuel
             (Ctx.left Color.red pk pvs sl (Ctx.left Color.black sk svs sr up))
       | _ => deleteCase3 fuel (Ctx.left pc pk pvs sib up))
  | Ctx.right sib pc pk pvs up =>
      (match sib with
       | RBNode.node Color.red sl sk svs sr =>
           -- `... rotateRight(node.parent)`
           deleteCase3 fuel
             (Ctx.right sr Color.red pk pvs (Ctx.right sl Color.black sk svs up))
       | _ => deleteCase3 fuel (Ctx.right sib pc pk pvs up))
termination_by 3 * fuel + 1

/-- Go `deleteCase3`: parent, sibling and both of the sibling's children
black → recolor the sibling red and recurse from the parent (the parent's
context is the remaining frames); otherwise case 4. -/
def deleteCase3 (fuel : Nat) (ctx : Ctx) : Ctx :=
  match ctx with
  | Ctx.top => Ctx.top  -- unreachable
  | Ctx.left pc pk pvs sib up =>
      if pc = Color.black ∧ nodeColor sib = Color.black ∧
          nodeColor (leftOf sib) = Color.black ∧ nodeColor (rightOf sib) = Color.black then
        match fuel with
        | 0 => Ctx.left pc pk pvs (setColor sib Color.red) up  -- never reached: see `deleteFix` lemmas
        | fuel' + 1 => Ctx.left pc pk pvs (setColor sib Color.red) (deleteCase1 fuel' up)
      else deleteCase4 (Ctx.left pc pk pvs sib up)
  | Ctx.right sib pc pk pvs up =>
      if pc = Color.black ∧ nodeColor sib = Color.black ∧
          nodeColor (leftOf sib) = Color.black ∧ nodeColor (rightOf sib) = Color.black then
        match fuel with
        | 0 => Ctx.right (setColor sib Color.red) pc pk pvs up
        | fuel' + 1 => Ctx.right (setColor sib Color.red) pc pk pvs (deleteCase1 fuel' up)
      else deleteCase4 (Ctx.right sib pc pk pvs up)
termination_by 3 * fuel

end

/-- The splice-out part of Go `Tree.Remove` (from `var child *Node` on):
`m` is the node actually removed (it has at most one child on every
reachable path), `ctx2` its context, `sz` the already-decremented size.
A black node runs the deletion fix-up before unlinking
(`node.color = nodeColor(child)` in the source is dead: the fix-up never
reads the node's color and the node is discarded).  Then the node is
replaced by its child; a child promoted to the root is forced black. -/
def spliceOut (sz : Int) (m : RBNode) (ctx2 : Ctx) : Tree :=
  match m with
  | RBNode.nil => { root := ctx2.plug RBNode.nil, size := sz }  -- unreachable: `m` is a found node
  | RBNode.node mc ml _mk _mvs mr =>
      if ml = RBNode.nil ∨ mr = RBNode.nil then
        let child := if mr = RBNode.nil then ml else mr
        let ctx' := if mc = Color.black then deleteCase1 (ctx2.len + 1) ctx2 else ctx2
        match ctx' with
        | Ctx.top =>
            -- `replaceNode(node, child)` with no parent sets the root;
            -- `if node.parent == nil && child != nil { child.color = black }`
            { root := setColor child Color.black, size := sz }
        | _ => { root := ctx'.plug child, size := sz }
      else
        -- dead branch of the source's `if node.left == nil || node.right == nil`
        { root := ctx2.plug m, size := sz }

/-- Go `Tree.Remove` after its nil guard (the guard is `Tree.removeG`):
no-op if the key is absent; otherwise decrement `size` by the node's value
count, reduce a two-child node to its in-order predecessor (copy the
predecessor's key and values up, then delete the predecessor), and splice. -/
def Tree.remove (t : Tree) (key : Int) : Tree :=
  match lookupZip t.root Ctx.top key with
  | none => t
  | some (RBNode.nil, _) => t  -- `lookupZip` never yields nil; totality only
  | some (RBNode.node c l k vs r, ctx) =>
      let sz := t.size - vs.length
      if l ≠ RBNode.nil ∧ r ≠ RBNode.nil then
        match maximumNode l with
        | RBNode.nil => t  -- unreachable: `l` is not nil
        | RBNode.node _ _ pk pvs _ =>
            -- `node.key = pred.key; node.values = pred.values; node = pred`
            let mz := maxZip l (Ctx.left c pk pvs r ctx)
            spliceOut sz mz.1 mz.2
      else
        spliceOut sz (RBNode.node c l k vs r) ctx

/-- Go `Tree.Remove` including the `if key == nil { return }` guard. -/
def Tree.removeG (t : Tree) (key : Option Int) : Tree :=
  match key with
  | none => t
  | some k => t.remove k

/-- Go `Tree.Empty`: `size == 0`. -/
def Tree.empty (t : Tree) : Bool := t.size = 0

/-- Go `Tree.Clear`: drop the root, reset the size. -/
def Tree.clear (_t : Tree) : Tree := { root := RBNode.nil, size := 0 }

/-- The `parent` variable of Go `Tree.Left` at loop exit: the terminal node
of the all-left descent (`nil` for the empty tree). -/
def leftmostNode : RBNode → RBNode
  | RBNode.nil => RBNode.nil
  | RBNode.node c RBNode.nil k vs r => RBNode.node c RBNode.nil k vs r
  | RBNode.node _ (RBNode.node lc ll lk lvs lr) _ _ _ =>
      leftmostNode (RBNode.node lc ll lk lvs lr)

/-- The `parent` variable of Go `Tree.Right` at loop exit. -/
def rightmostNode : RBNode → RBNode
  | RBNode.nil => RBNode.nil
  | RBNode.node c l k vs RBNode.nil => RBNode.node c l k vs RBNode.nil
  | RBNode.node _ _ _ _ (RBNode.node rc rl rk rvs rr) =>
      rightmostNode (RBNode.node rc rl rk rvs rr)

/-- Go `Tree.Left` (in src): the leftmost node's value list, or `none` for
the empty tree. -/
def Tree.leftVals (t : Tree) : Option (List Value) :=
  match leftmostNode t.root with
  | RBNode.nil => none
  | RBNode.node _ _ _ vs _ => some vs

/-- Go `Tree.Right` (in src). -/
def Tree.rightVals (t : Tree) : Option (List Value) :=
  match rightmostNode t.root with
  | RBNode.nil => none
  | RBNode.node _ _ _ vs _ => some vs

/-- Modelled from the spec: the wrapper's `Min()` calls `internal/pkg`'s
`Left()`, which is not under `src/`; per the spec it descends all-left from
the root and returns the terminal node's key and value list (absent result
on the empty tree).  The descent is the one of `Tree.Left` in src. -/
def Tree.minPair (t : Tree) : Option (Int × List Value) :=
  match leftmostNode t.root with
  | RBNode.nil => none
  | RBNode.node _ _ k vs _ => some (k, vs)

/-- Modelled from the spec: the wrapper's `Max()`, mirror of `minPair`. -/
def Tree.maxPair (t : Tree) : Option (Int × List Value) :=
  match rightmostNode t.root with
  | RBNode.nil => none
  | RBNode.node _ _ k vs _ => some (k, vs)

/-- Modelled from the spec: `PopMin()` (wrapper `PopLeft`, not under
`src/`) returns what `Min()` returns "then remove that key". -/
def Tree.popMin (t : Tree) : Option (Int × List Value) × Tree :=
  match t.minPair with
  | none => (none, t)
  | some (k, vs) => (some (k, vs), t.remove k)

/-- Modelled from the spec: `PopMax()`, mirror of `popMin`. -/
def Tree.popMax (t : Tree) : Option (Int × List Value) × Tree :=
  match t.maxPair with
  | none => (none, t)
  | some (k, vs) => (some (k, vs), t.remove k)

/-- The loop of Go `Tree.Floor`: `acc` is the recorded candidate
(`floor, found`), updated whenever the search moves right; an exact match
returns immediately. -/
def floorLoop : RBNode → Int → Option (List Value) → Option (List Value)
  | RBNode.nil, _, acc => acc
  | RBNode.node _ l k vs r, key, acc =>
      let cmp := comparator key k
      if cmp = 0 then some vs
      else if cmp < 0 then floorLoop l key acc
      else floorLoop r key (some vs)

/-- Go `Tree.Floor`: `none` models `(nil, false)`. -/
def Tree.floor (t : Tree) (key : Int) : Option (List Value) :=
  floorLoop t.root key none

/-- The loop of Go `Tree.Ceiling`: the candidate is recorded whenever the
search moves left. -/
def ceilingLoop : RBNode → Int → Option (List Value) → Option (List Value)
  | RBNode.nil, _, acc => acc
  | RBNode.node _ l k vs r, key, acc =>
      let cmp := comparator key k
      if cmp = 0 then some vs
      else if cmp < 0 then ceilingLoop l key (some vs)
      else ceilingLoop r key acc

/-- Go `Tree.Ceiling`. -/
def Tree.ceiling (t : Tree) (key : Int) : Option (List Value) :=
  ceilingLoop t.root key none

/-- The public mutating operations (wrapper level, nil guards included). -/
inductive Op where
  | put (key : Option Int) (value : Option Value) : Op
  | remove (key : Option Int) : Op
  | clear : Op
  | popMin : Op
  | popMax : Op

/-- One public mutating call. -/
def Tree.applyOp (t : Tree) : Op → Tree
  | Op.put k v => t.putG k v
  | Op.remove k => t.removeG k
  | Op.clear => t.clear
  | Op.popMin => t.popMin.2
  | Op.popMax => t.popMax.2

/-- The tree after a sequence of public mutating calls on a fresh tree. -/
def run (ops : List Op) : Tree := ops.foldl Tree.applyOp emptyTree

/-! ## The red-black balance invariant -/

/-- `Balanced t c h`: `t`'s root has color `c`, every path from the root to
a nil leaf passes through `h` black nodes, and no red node has a red
child. -/
inductive Balanced : RBNode → Color → Nat → Prop where
  | nil : Balanced RBNode.nil Color.black 0
  | red {l r : RBNode} {h : Nat} {k : Int} {vs : List Value} :
      Balanced l Color.black h → Balanced r Color.black h →
      Balanced (RBNode.node Color.red l k vs r) Color.red h
  | black {l r : RBNode} {cl cr : Color} {h : Nat} {k : Int} {vs : List Value} :
      Balanced l cl h → Balanced r cr h →
      Balanced (RBNode.node Color.black l k vs r) Color.black (h + 1)

/-- `CtxBal c₀ h₀ ctx c h`: the context is a `(c₀, h₀)`-balanced tree with
a hole in place of a `(c, h)` subtree; filling the hole with a `(c, h)`
tree gives a `(c₀, h₀)` tree (`CtxBal.plug`).  A hole under a red parent
must be black; under a black parent its color is free. -/
inductive CtxBal (c₀ : Color) (h₀ : Nat) : Ctx → Color → Nat → Prop where
  | top : CtxBal c₀ h₀ Ctx.top c₀ h₀
  | redL {sib : RBNode} {up : Ctx} {h : Nat} {pk : Int} {pvs : List Value} :
      Balanced sib Color.black h → CtxBal c₀ h₀ up Color.red h →
      CtxBal c₀ h₀ (Ctx.left Color.red pk pvs sib up) Color.black h
  | redR {sib : RBNode} {up : Ctx} {h : Nat} {pk : Int} {pvs : List Value} :
      Balanced sib Color.black h → CtxBal c₀ h₀ up Color.red h →
      CtxBal c₀ h₀ (Ctx.right sib Color.red pk pvs up) Color.black h
  | blackL {sib : RBNode} {up : Ctx} {h : Nat} {pk : Int} {pvs : List Value}
      {cs c : Color} :
      Balanced sib cs h → CtxBal c₀ h₀ up Color.black (h + 1) →
      CtxBal c₀ h₀ (Ctx.left Color.black pk pvs sib up) c h
  | blackR {sib : RBNode} {up : Ctx} {h : Nat} {pk : Int} {pvs : List Value}
      {cs c : Color} :
      Balanced sib cs h → CtxBal c₀ h₀ up Color.black (h + 1) →
      CtxBal c₀ h₀ (Ctx.right sib Color.black pk pvs up) c h

theorem CtxBal.plug {c₀ : Color} {h₀ : Nat} :
    ∀ {ctx : Ctx} {c : Color} {h : Nat} {t : RBNode},
    CtxBal c₀ h₀ ctx c h → Balanced t c h → Balanced (ctx.plug t) c₀ h₀
  | _, _, _, _, CtxBal.top, hb => hb
  | _, _, _, _, CtxBal.redL hs hup, hb => hup.plug (Balanced.red hb hs)
  | _, _, _, _, CtxBal.redR hs hup, hb => hup.plug (Balanced.red hs hb)
  | _, _, _, _, CtxBal.blackL hs hup, hb => hup.plug (Balanced.black hb hs)
  | _, _, _, _, CtxBal.blackR hs hup, hb => hup.plug (Balanced.black hs hb)

/-- A hole whose expected color is red sits under a black parent (or at
the top of a black tree), so its expected color is in fact free. -/
theorem CtxBal.recolor {c₀ : Color} {h₀ : Nat} {ctx : Ctx} {h : Nat}
    (hc : CtxBal c₀ h₀ ctx Color.red h) (c' : Color) :
    c₀ = Color.red ∧ ctx = Ctx.top ∨ CtxBal c₀ h₀ ctx c' h := by
  cases hc with
  | top => exact Or.inl ⟨rfl, rfl⟩
  | blackL hs hup => exact Or.inr (CtxBal.blackL hs hup)
  | blackR hs hup => exact Or.inr (CtxBal.blackR hs hup)

theorem Balanced.nodeColor_eq {t : RBNode} {c : Color} {h : Nat}
    (hb : Balanced t c h) : nodeColor t = c := by
  cases hb <;> rfl

theorem Balanced.noRedRed {t : RBNode} {c : Color} {h : Nat}
    (hb : Balanced t c h) : RBNode.noRedRed t = true := by
  induction hb with
  | nil => rfl
  | red hl hr ihl ihr =>
      simp [RBNode.noRedRed, ihl, ihr, hl.nodeColor_eq, hr.nodeColor_eq]
  | black hl hr ihl ihr => simp [RBNode.noRedRed, ihl, ihr]

theorem Balanced.bhAll {t : RBNode} {c : Color} {h : Nat}
    (hb : Balanced t c h) : RBNode.bhAll t = some h := by
  induction hb with
  | nil => rfl
  | red hl hr ihl ihr => simp [RBNode.bhAll, ihl, ihr]
  | black hl hr ihl ihr => simp [RBNode.bhAll, ihl, ihr]

/-- A black tree of black-height 0 is nil. -/
theorem Balanced.black_zero {t : RBNode} (hb : Balanced t Color.black 0) :
    t = RBNode.nil := by
  cases hb; rfl

/-! ## Insertion fix-up: contents and balance -/

theorem inorder_setColor (t : RBNode) (c : Color) :
    inorder (setColor t c) = inorder t := by
  cases t <;> rfl

theorem insertCase5_inorder (n : RBNode) (ctx : Ctx) :
    inorder (insertCase5 n ctx) = ctx.before ++ inorder n ++ ctx.after := by
  unfold insertCase5
  split <;>
    simp [inorder_plug, rotateLeft, rotateRight, inorder, Ctx.before, Ctx.after]

theorem insertCase4_inorder (n : RBNode) (ctx : Ctx) :
    inorder (insertCase4 n ctx) = ctx.before ++ inorder n ++ ctx.after := by
  cases ctx with
  | top => simp [insertCase4, insertCase5_inorder]
  | left pc pk pvs psib up =>
      cases up with
      | top => simp [insertCase4, insertCase5_inorder]
      | left gc gk gvs gsib up2 => simp [insertCase4, insertCase5_inorder]
      | right gsib gc gk gvs up2 =>
          cases n with
          | nil => simp [insertCase4, inorder_plug]
          | node nc nl nk nvs nr =>
              simp [insertCase4, insertCase5_inorder, Ctx.before, Ctx.after, inorder]
  | right psib pc pk pvs up =>
      cases up with
      | top => simp [insertCase4, insertCase5_inorder]
      | right gsib gc gk gvs up2 => simp [insertCase4, insertCase5_inorder]
      | left gc gk gvs gsib up2 =>
          cases n with
          | nil => simp [insertCase4, inorder_plug]
          | node nc nl nk nvs nr =>
              simp [insertCase4, insertCase5_inorder, Ctx.before, Ctx.after, inorder]

theorem insFix_inorder :
    ∀ (N : Nat) (ctx : Ctx) (n : RBNode), ctx.len ≤ N →
      inorder (insertCase1 n ctx) = ctx.before ++ inorder n ++ ctx.after ∧
      inorder (insertCase2 n ctx) = ctx.before ++ inorder n ++ ctx.after ∧
      inorder (insertCase3 n ctx) = ctx.before ++ inorder n ++ ctx.after := by
  intro N
  induction N with
  | zero =>
      intro ctx n hlen
      have hctx : ctx = Ctx.top := by
        cases ctx <;> simp [Ctx.len] at hlen ⊢
      subst hctx
      refine ⟨?_, ?_, ?_⟩
      · simp [insertCase1, inorder_setColor, Ctx.before, Ctx.after]
      · simp [insertCase2, Ctx.parentColor, Ctx.plug, Ctx.before, Ctx.after]
      · simpa [insertCase3] using insertCase4_inorder n Ctx.top
  | succ N ih =>
      intro ctx n hlen
      have h3 : inorder (insertCase3 n ctx) = ctx.before ++ inorder n ++ ctx.after := by
        cases ctx with
        | top => simpa [insertCase3] using insertCase4_inorder n Ctx.top
        | left pc pk pvs psib up =>
            cases up with
            | top =>
                simpa [insertCase3] using
                  insertCase4_inorder n (Ctx.left pc pk pvs psib Ctx.top)
            | left gc gk gvs gsib up2 =>
                match gsib with
                | RBNode.nil =>
                    simpa [insertCase3] using insertCase4_inorder n _
                | RBNode.node Color.black ul uk uvs ur =>
                    simpa [insertCase3] using insertCase4_inorder n _
                | RBNode.node Color.red ul uk uvs ur =>
                    rw [insertCase3]
                    rw [(ih up2 _ (by simp [Ctx.len] at hlen; omega)).1]
                    simp [Ctx.before, Ctx.after, inorder]
            | right gsib gc gk gvs up2 =>
                match gsib with
                | RBNode.nil =>
                    simpa [insertCase3] using insertCase4_inorder n _
                | RBNode.node Color.black ul uk uvs ur =>
                    simpa [insertCase3] using insertCase4_inorder n _
                | RBNode.node Color.red ul uk uvs ur =>
                    rw [insertCase3]
                    rw [(ih up2 _ (by simp [Ctx.len] at hlen; omega)).1]
                    simp [Ctx.before, Ctx.after, inorder]
        | right psib pc pk pvs up =>
            cases up with
            | top =>
                simpa [insertCase3] using
                  insertCase4_inorder n (Ctx.right psib pc pk pvs Ctx.top)
            | left gc gk gvs gsib up2 =>
                match gsib with
                | RBNode.nil =>
                    simpa [insertCase3] using insertCase4_inorder n _
                | RBNode.node Color.black ul uk uvs ur =>
                    simpa [insertCase3] using insertCase4_inorder n _
                | RBNode.node Color.red ul uk uvs ur =>
                    rw [insertCase3]
                    rw [(ih up2 _ (by simp [Ctx.len] at hlen; omega)).1]
                    simp [Ctx.before, Ctx.after, inorder]
            | right gsib gc gk gvs up2 =>
                match gsib with
                | RBNode.nil =>
                    simpa [insertCase3] using insertCase4_inorder n _
                | RBNode.node Color.black ul uk uvs ur =>
                    simpa [insertCase3] using insertCase4_inorder n _
                | RBNode.node Color.red ul uk uvs ur =>
                    rw [insertCase3]
                    rw [(ih up2 _ (by simp [Ctx.len] at hlen; omega)).1]
                    simp [Ctx.before, Ctx.after, inorder]
      have h2 : inorder (insertCase2 n ctx) = ctx.before ++ inorder n ++ ctx.after := by
        rw [insertCase2]
        split
        · exact inorder_plug ..
        · exact h3
      refine ⟨?_, h2, h3⟩
      rw [insertCase1]
      split
      · rename_i h; subst h; simp [inorder_setColor, Ctx.before, Ctx.after]
      · exact h2

theorem insertCase1_inorder (n : RBNode) (ctx : Ctx) :
    inorder (insertCase1 n ctx) = ctx.before ++ inorder n ++ ctx.after :=
  (insFix_inorder ctx.len ctx n le_rfl).1

theorem Balanced.setBlack_red {n : RBNode} {h : Nat}
    (hn : Balanced n Color.red h) : Balanced (setColor n Color.black) Color.black (h + 1) := by
  cases hn with
  | red hl hr => exact Balanced.black hl hr

theorem insFix_bal :
    ∀ (N : Nat) (ctx : Ctx) (n : RBNode) {h₀ : Nat} {c : Color} {h : Nat},
      ctx.len ≤ N →
      CtxBal Color.black h₀ ctx c h → Balanced n Color.red h →
      (∃ h₁, Balanced (insertCase1 n ctx) Color.black h₁) ∧
      (ctx ≠ Ctx.top → ∃ h₁, Balanced (insertCase2 n ctx) Color.black h₁) ∧
      (ctx.parentColor = Color.red → ∃ h₁, Balanced (insertCase3 n ctx) Color.black h₁) := by
  intro N
  induction N with
  | zero =>
      intro ctx n h₀ c h hlen hctx hn
      have hctx' : ctx = Ctx.top := by
        cases ctx <;> simp [Ctx.len] at hlen ⊢
      subst hctx'
      refine ⟨⟨h + 1, ?_⟩, fun hne => absurd rfl hne, fun hred => ?_⟩
      · simp only [insertCase1, if_pos rfl]
        exact hn.setBlack_red
      · simp [Ctx.parentColor] at hred
  | succ N ih =>
      intro ctx n h₀ c h hlen hctx hn
      have h3 : ctx.parentColor = Color.red →
          ∃ h₁, Balanced (insertCase3 n ctx) Color.black h₁ := by
        intro hred
        cases hctx with
        | top => simp [Ctx.parentColor] at hred
        | blackL hs hup => simp [Ctx.parentColor] at hred
        | blackR hs hup => simp [Ctx.parentColor] at hred
        | redL hs hup =>
            rename_i up hh pk pvs
            cases hup with
            | blackL hs2 hup2 =>
                rename_i up2 gk gvs cs
                cases hs2 with
                | nil =>
                    simp only [insertCase3, insertCase4, insertCase5, rotateRight]
                    exact ⟨h₀, hup2.plug (Balanced.black hn (Balanced.red hs Balanced.nil))⟩
                | red hul hur =>
                    simp only [insertCase3]
                    exact (ih up2 _ (by simp [Ctx.len] at hlen; omega) hup2
                      (Balanced.red (Balanced.black hn hs) (Balanced.black hul hur))).1
                | black hl2 hr2 =>
                    simp only [insertCase3, insertCase4, insertCase5, rotateRight]
                    exact ⟨h₀, hup2.plug
                      (Balanced.black hn (Balanced.red hs (Balanced.black hl2 hr2)))⟩
            | blackR hs2 hup2 =>
                rename_i up2 gk gvs cs
                cases hn with
                | red hnl hnr =>
                    rename_i nl nr _ nk nvs
                    cases hs2 with
                    | nil =>
                        simp only [insertCase3, insertCase4, insertCase5, rotateLeft]
                        exact ⟨h₀, hup2.plug (Balanced.black
                          (Balanced.red Balanced.nil hnl) (Balanced.red hnr hs))⟩
                    | red hul hur =>
                        simp only [insertCase3]
                        exact (ih up2 _ (by simp [Ctx.len] at hlen; omega) hup2
                          (Balanced.red (Balanced.black hul hur)
                            (Balanced.black (Balanced.red hnl hnr) hs))).1
                    | black hl2 hr2 =>
                        simp only [insertCase3, insertCase4, insertCase5, rotateLeft]
                        exact ⟨h₀, hup2.plug (Balanced.black
                          (Balanced.red (Balanced.black hl2 hr2) hnl)
                          (Balanced.red hnr hs))⟩
        | redR hs hup =>
            rename_i up hh pk pvs
            cases hup with
            | blackR hs2 hup2 =>
                rename_i up2 gk gvs cs
                cases hs2 with
                | nil =>
                    simp only [insertCase3, insertCase4, insertCase5, rotateLeft]
                    exact ⟨h₀, hup2.plug (Balanced.black (Balanced.red Balanced.nil hs) hn)⟩
                | red hul hur =>
                    simp only [insertCase3]
                    exact (ih up2 _ (by simp [Ctx.len] at hlen; omega) hup2
                      (Balanced.red (Balanced.black hul hur) (Balanced.black hs hn))).1
                | black hl2 hr2 =>
                    simp only [insertCase3, insertCase4, insertCase5, rotateLeft]
                    exact ⟨h₀, hup2.plug
                      (Balanced.black (Balanced.red (Balanced.black hl2 hr2) hs) hn)⟩
            | blackL hs2 hup2 =>
                rename_i up2 gk gvs cs
                cases hn with
                | red hnl hnr =>
                    rename_i nl nr _ nk nvs
                    cases hs2 with
                    | nil =>
                        simp only [insertCase3, insertCase4, insertCase5, rotateRight]
                        exact ⟨h₀, hup2.plug (Balanced.black
                          (Balanced.red hs hnl) (Balanced.red hnr Balanced.nil))⟩
                    | red hul hur =>
                        simp only [insertCase3]
                        exact (ih up2 _ (by simp [Ctx.len] at hlen; omega) hup2
                          (Balanced.red (Balanced.black hs (Balanced.red hnl hnr))
                            (Balanced.black hul hur))).1
                    | black hl2 hr2 =>
                        simp only [insertCase3, insertCase4, insertCase5, rotateRight]
                        exact ⟨h₀, hup2.plug (Balanced.black
                          (Balanced.red hs hnl)
                          (Balanced.red hnr (Balanced.black hl2 hr2)))⟩
      have h2 : ctx ≠ Ctx.top → ∃ h₁, Balanced (insertCase2 n ctx) Color.black h₁ := by
        intro hne
        rw [insertCase2]
        split
        · rename_i hblack
          cases hctx with
          | top => exact absurd rfl hne
          | redL hs hup => simp [Ctx.parentColor] at hblack
          | redR hs hup => simp [Ctx.parentColor] at hblack
          | blackL hs hup => exact ⟨h₀, (CtxBal.blackL hs hup).plug hn⟩
          | blackR hs hup => exact ⟨h₀, (CtxBal.blackR hs hup).plug hn⟩
        · rename_i hnb
          exact h3 (by cases hcp : ctx.parentColor with
            | red => rfl
            | black => exact absurd hcp hnb)
      refine ⟨?_, h2, h3⟩
      rw [insertCase1]
      split
      · rename_i he; subst he
        exact ⟨h + 1, hn.setBlack_red⟩
      · rename_i hne
        exact h2 hne

/-- The insertion fix-up started on a red node in a black-rooted context
yields a black-rooted balanced tree. -/
theorem insertCase1_bal {ctx : Ctx} {n : RBNode} {h₀ : Nat} {c : Color} {h : Nat}
    (hctx : CtxBal Color.black h₀ ctx c h) (hn : Balanced n Color.red h) :
    ∃ h₁, Balanced (insertCase1 n ctx) Color.black h₁ :=
  (insFix_bal ctx.len ctx n le_rfl hctx hn).1

/-! ## Deletion fix-up: contents and balance

The fix-up transforms the deficient node's context; the lemmas track that
the trimmings (`Ctx.before`/`Ctx.after`) are preserved and that the
resulting context absorbs one black: from a hole expecting black-height
`h + 1` to a hole accepting trees of black-height `h` of any color. -/

/-- A red hole in a black-rooted tree can take any expected color. -/
theorem CtxBal.recolor_black {h₀ : Nat} {ctx : Ctx} {h : Nat}
    (hc : CtxBal Color.black h₀ ctx Color.red h) (c' : Color) :
    CtxBal Color.black h₀ ctx c' h := by
  rcases hc.recolor c' with ⟨hc₀, _⟩ | h
  · exact Color.noConfusion hc₀
  · exact h

/-- The conclusion shared by the deletion fix-up case lemmas: the
transformed context keeps the surrounding in-order pairs and accepts any
subtree one black shorter. -/
def DelOut (ctx r : Ctx) (h : Nat) : Prop :=
  r.before = ctx.before ∧ r.after = ctx.after ∧
    ∃ h₀', ∀ c', CtxBal Color.black h₀' r c' h

theorem delCase6_left {h₀ h : Nat} {pc c1 : Color} {pk sk rk : Int}
    {pvs svs rvs : List Value} {s1 r1 r2 : RBNode} {up : Ctx}
    (hs1 : Balanced s1 c1 h)
    (hr1 : Balanced r1 Color.black h) (hr2 : Balanced r2 Color.black h)
    (hupr : pc = Color.red → CtxBal Color.black h₀ up Color.red (h + 1))
    (hupb : pc = Color.black → CtxBal Color.black h₀ up Color.black (h + 2)) :
    DelOut
      (Ctx.left pc pk pvs
        (RBNode.node Color.black s1 sk svs (RBNode.node Color.red r1 rk rvs r2)) up)
      (deleteCase6
        (Ctx.left pc pk pvs
          (RBNode.node Color.black s1 sk svs (RBNode.node Color.red r1 rk rvs r2)) up))
      h := by
  simp only [deleteCase6, DelOut]
  refine ⟨?_, ?_, h₀, fun c' => ?_⟩
  · simp [Ctx.before]
  · simp [Ctx.after, inorder]
  · refine CtxBal.blackL hs1 ?_
    cases pc with
    | red => exact CtxBal.redL (Balanced.black hr1 hr2) (hupr rfl)
    | black => exact CtxBal.blackL (Balanced.black hr1 hr2) (hupb rfl)

theorem delCase6_right {h₀ h : Nat} {pc c2 : Color} {pk sk lk : Int}
    {pvs svs lvs : List Value} {s2 l1 l2 : RBNode} {up : Ctx}
    (hl1 : Balanced l1 Color.black h) (hl2 : Balanced l2 Color.black h)
    (hs2 : Balanced s2 c2 h)
    (hupr : pc = Color.red → CtxBal Color.black h₀ up Color.red (h + 1))
    (hupb : pc = Color.black → CtxBal Color.black h₀ up Color.black (h + 2)) :
    DelOut
      (Ctx.right
        (RBNode.node Color.black (RBNode.node Color.red l1 lk lvs l2) sk svs s2)
        pc pk pvs up)
      (deleteCase6
        (Ctx.right
          (RBNode.node Color.black (RBNode.node Color.red l1 lk lvs l2) sk svs s2)
          pc pk pvs up))
      h := by
  simp only [deleteCase6, DelOut]
  refine ⟨?_, ?_, h₀, fun c' => ?_⟩
  · simp [Ctx.before, inorder]
  · simp [Ctx.after]
  · refine CtxBal.blackR hs2 ?_
    cases pc with
    | red => exact CtxBal.redR (Balanced.black hl1 hl2) (hupr rfl)
    | black => exact CtxBal.blackR (Balanced.black hl1 hl2) (hupb rfl)

theorem delCase5_left {h₀ h : Nat} {pc c1 c2 : Color} {pk sk : Int}
    {pvs svs : List Value} {s1 s2 : RBNode} {up : Ctx}
    (hs1 : Balanced s1 c1 h) (hs2 : Balanced s2 c2 h)
    (hred : c1 = Color.red ∨ c2 = Color.red)
    (hupr : pc = Color.red → CtxBal Color.black h₀ up Color.red (h + 1))
    (hupb : pc = Color.black → CtxBal Color.black h₀ up Color.black (h + 2)) :
    DelOut
      (Ctx.left pc pk pvs (RBNode.node Color.black s1 sk svs s2) up)
      (deleteCase5 (Ctx.left pc pk pvs (RBNode.node Color.black s1 sk svs s2) up))
      h := by
  by_cases h5 : c1 = Color.red ∧ c2 = Color.black
  · obtain ⟨hc1, hc2⟩ := h5
    subst hc1; subst hc2
    cases hs1 with
    | red ha hb =>
        rename_i a b ak avs
        have h6 : DelOut
            (Ctx.left pc pk pvs
              (RBNode.node Color.black a ak avs (RBNode.node Color.red b sk svs s2)) up)
            (deleteCase6
              (Ctx.left pc pk pvs
                (RBNode.node Color.black a ak avs (RBNode.node Color.red b sk svs s2)) up))
            h := delCase6_left ha hb hs2 hupr hupb
        have hcond : nodeColor (RBNode.node Color.black
              (RBNode.node Color.red a ak avs b) sk svs s2) = Color.black ∧
            nodeColor (leftOf (RBNode.node Color.black
              (RBNode.node Color.red a ak avs b) sk svs s2)) = Color.red ∧
            nodeColor (rightOf (RBNode.node Color.black
              (RBNode.node Color.red a ak avs b) sk svs s2)) = Color.black :=
          ⟨rfl, rfl, hs2.nodeColor_eq⟩
        simp only [deleteCase5, if_pos hcond, setColor, rotateRight]
        refine ⟨?_, ?_, h6.2.2⟩
        · rw [h6.1]; simp [Ctx.before]
        · rw [h6.2.1]; simp [Ctx.after, inorder]
  · have hc2 : c2 = Color.red := by
      rcases hred with h1 | h2
      · cases hc2 : c2 with
        | red => rfl
        | black => exact absurd ⟨h1, hc2⟩ h5
      · exact h2
    subst hc2
    cases hs2 with
    | red hr1 hr2 =>
        rename_i r1 r2 rk rvs
        have hcond : ¬ (nodeColor (RBNode.node Color.black s1 sk svs
              (RBNode.node Color.red r1 rk rvs r2)) = Color.black ∧
            nodeColor (leftOf (RBNode.node Color.black s1 sk svs
              (RBNode.node Color.red r1 rk rvs r2))) = Color.red ∧
            nodeColor (rightOf (RBNode.node Color.black s1 sk svs
              (RBNode.node Color.red r1 rk rvs r2))) = Color.black) := by
          simp [nodeColor, leftOf, rightOf]
        simp only [deleteCase5, if_neg hcond]
        exact delCase6_left hs1 hr1 hr2 hupr hupb

theorem delCase5_right {h₀ h : Nat} {pc c1 c2 : Color} {pk sk : Int}
    {pvs svs : List Value} {s1 s2 : RBNode} {up : Ctx}
    (hs1 : Balanced s1 c1 h) (hs2 : Balanced s2 c2 h)
    (hred : c1 = Color.red ∨ c2 = Color.red)
    (hupr : pc = Color.red → CtxBal Color.black h₀ up Color.red (h + 1))
    (hupb : pc = Color.black → CtxBal Color.black h₀ up Color.black (h + 2)) :
    DelOut
      (Ctx.right (RBNode.node Color.black s1 sk svs s2) pc pk pvs up)
      (deleteCase5 (Ctx.right (RBNode.node Color.black s1 sk svs s2) pc pk pvs up))
      h := by
  by_cases h5 : c2 = Color.red ∧ c1 = Color.black
  · obtain ⟨hc2, hc1⟩ := h5
    subst hc2; subst hc1
    cases hs2 with
    | red ha hb =>
        rename_i a b ak avs
        have h6 : DelOut
            (Ctx.right
              (RBNode.node Color.black (RBNode.node Color.red s1 sk svs a) ak avs b)
              pc pk pvs up)
            (deleteCase6
              (Ctx.right
                (RBNode.node Color.black (RBNode.node Color.red s1 sk svs a) ak avs b)
                pc pk pvs up))
            h := delCase6_right hs1 ha hb hupr hupb
        have hcond : nodeColor (RBNode.node Color.black s1 sk svs
              (RBNode.node Color.red a ak avs b)) = Color.black ∧
            nodeColor (rightOf (RBNode.node Color.black s1 sk svs
              (RBNode.node Color.red a ak avs b))) = Color.red ∧
            nodeColor (leftOf (RBNode.node Color.black s1 sk svs
              (RBNode.node Color.red a ak avs b))) = Color.black :=
          ⟨rfl, rfl, hs1.nodeColor_eq⟩
        simp only [deleteCase5, if_pos hcond, setColor, rotateLeft]
        refine ⟨?_, ?_, h6.2.2⟩
        · rw [h6.1]; simp [Ctx.before, inorder]
        · rw [h6.2.1]; simp [Ctx.after]
  · have hc1 : c1 = Color.red := by
      rcases hred with h1 | h2
      · exact h1
      · cases hc1 : c1 with
        | red => rfl
        | black => exact absurd ⟨h2, hc1⟩ h5
    subst hc1
    cases hs1 with
    | red hl1 hl2 =>
        rename_i l1 l2 lk lvs
        have hcond : ¬ (nodeColor (RBNode.node Color.black
              (RBNode.node Color.red l1 lk lvs l2) sk svs s2) = Color.black ∧
            nodeColor (rightOf (RBNode.node Color.black
              (RBNode.node Color.red l1 lk lvs l2) sk svs s2)) = Color.red ∧
            nodeColor (leftOf (RBNode.node Color.black
              (RBNode.node Color.red l1 lk lvs l2) sk svs s2)) = Color.black) := by
          simp [nodeColor, leftOf, rightOf]
        simp only [deleteCase5, if_neg hcond]
        exact delCase6_right hl1 hl2 hs2 hupr hupb

theorem delCase4_left {h₀ h : Nat} {pc c1 c2 : Color} {pk sk : Int}
    {pvs svs : List Value} {s1 s2 : RBNode} {up : Ctx}
    (hs1 : Balanced s1 c1 h) (hs2 : Balanced s2 c2 h)
    (hany : pc = Color.red ∨ c1 = Color.red ∨ c2 = Color.red)
    (hupr : pc = Color.red → CtxBal Color.black h₀ up Color.red (h + 1))
    (hupb : pc = Color.black → CtxBal Color.black h₀ up Color.black (h + 2)) :
    DelOut
      (Ctx.left pc pk pvs (RBNode.node Color.black s1 sk svs s2) up)
      (deleteCase4 (Ctx.left pc pk pvs (RBNode.node Color.black s1 sk svs s2) up))
      h := by
  by_cases h4 : pc = Color.red ∧ c1 = Color.black ∧ c2 = Color.black
  · obtain ⟨hpc, hc1, hc2⟩ := h4
    subst hpc; subst hc1; subst hc2
    have hcond : (Color.red = Color.red ∧
        nodeColor (RBNode.node Color.black s1 sk svs s2) = Color.black ∧
        nodeColor (leftOf (RBNode.node Color.black s1 sk svs s2)) = Color.black ∧
        nodeColor (rightOf (RBNode.node Color.black s1 sk svs s2)) = Color.black) :=
      ⟨rfl, rfl, hs1.nodeColor_eq, hs2.nodeColor_eq⟩
    rw [deleteCase4, if_pos hcond]
    simp only [setColor]
    refine ⟨rfl, rfl, h₀, fun c' => ?_⟩
    exact CtxBal.blackL (Balanced.red hs1 hs2) ((hupr rfl).recolor_black Color.black)
  · have hred : c1 = Color.red ∨ c2 = Color.red := by
      rcases hany with h1 | h2 | h3
      · subst h1
        cases hc1 : c1 with
        | red => exact Or.inl rfl
        | black =>
            cases hc2 : c2 with
            | red => exact Or.inr rfl
            | black => exact absurd ⟨rfl, hc1, hc2⟩ h4
      · exact Or.inl h2
      · exact Or.inr h3
    have hcond : ¬ (pc = Color.red ∧
        nodeColor (RBNode.node Color.black s1 sk svs s2) = Color.black ∧
        nodeColor (leftOf (RBNode.node Color.black s1 sk svs s2)) = Color.black ∧
        nodeColor (rightOf (RBNode.node Color.black s1 sk svs s2)) = Color.black) := by
      intro hcc
      rcases hred with h1 | h2
      · subst h1
        have hcL := hcc.2.2.1
        simp only [leftOf] at hcL
        rw [hs1.nodeColor_eq] at hcL
        exact Color.noConfusion hcL
      · subst h2
        have hcR := hcc.2.2.2
        simp only [rightOf] at hcR
        rw [hs2.nodeColor_eq] at hcR
        exact Color.noConfusion hcR
    rw [deleteCase4, if_neg hcond]
    exact delCase5_left hs1 hs2 hred hupr hupb

theorem delCase4_right {h₀ h : Nat} {pc c1 c2 : Color} {pk sk : Int}
    {pvs svs : List Value} {s1 s2 : RBNode} {up : Ctx}
    (hs1 : Balanced s1 c1 h) (hs2 : Balanced s2 c2 h)
    (hany : pc = Color.red ∨ c1 = Color.red ∨ c2 = Color.red)
    (hupr : pc = Color.red → CtxBal Color.black h₀ up Color.red (h + 1))
    (hupb : pc = Color.black → CtxBal Color.black h₀ up Color.black (h + 2)) :
    DelOut
      (Ctx.right (RBNode.node Color.black s1 sk svs s2) pc pk pvs up)
      (deleteCase4 (Ctx.right (RBNode.node Color.black s1 sk svs s2) pc pk pvs up))
      h := by
  by_cases h4 : pc = Color.red ∧ c1 = Color.black ∧ c2 = Color.black
  · obtain ⟨hpc, hc1, hc2⟩ := h4
    subst hpc; subst hc1; subst hc2
    have hcond : (Color.red = Color.red ∧
        nodeColor (RBNode.node Color.black s1 sk svs s2) = Color.black ∧
        nodeColor (leftOf (RBNode.node Color.black s1 sk svs s2)) = Color.black ∧
        nodeColor (rightOf (RBNode.node Color.black s1 sk svs s2)) = Color.black) :=
      ⟨rfl, rfl, hs1.nodeColor_eq, hs2.nodeColor_eq⟩
    rw [deleteCase4, if_pos hcond]
    simp only [setColor]
    refine ⟨rfl, rfl, h₀, fun c' => ?_⟩
    exact CtxBal.blackR (Balanced.red hs1 hs2) ((hupr rfl).recolor_black Color.black)
  · have hred : c1 = Color.red ∨ c2 = Color.red := by
      rcases hany with h1 | h2 | h3
      · subst h1
        cases hc1 : c1 with
        | red => exact Or.inl rfl
        | black =>
            cases hc2 : c2 with
            | red => exact Or.inr rfl
            | black => exact absurd ⟨rfl, hc1, hc2⟩ h4
      · exact Or.inl h2
      · exact Or.inr h3
    have hcond : ¬ (pc = Color.red ∧
        nodeColor (RBNode.node Color.black s1 sk svs s2) = Color.black ∧
        nodeColor (leftOf (RBNode.node Color.black s1 sk svs s2)) = Color.black ∧
        nodeColor (rightOf (RBNode.node Color.black s1 sk svs s2)) = Color.black) := by
      intro hcc
      rcases hred with h1 | h2
      · subst h1
        have hcL := hcc.2.2.1
        simp only [leftOf] at hcL
        rw [hs1.nodeColor_eq] at hcL
        exact Color.noConfusion hcL
      · subst h2
        have hcR := hcc.2.2.2
        simp only [rightOf] at hcR
        rw [hs2.nodeColor_eq] at hcR
        exact Color.noConfusion hcR
    rw [deleteCase4, if_neg hcond]
    exact delCase5_right hs1 hs2 hred hupr hupb

/-- The deletion fix-up: started below a hole expecting black-height
`h + 1` in a black-rooted tree (the spliced node is black), it keeps the
surrounding in-order pairs and turns the context into one that absorbs a
subtree of black-height `h` of any color — or reaches the root, where the
deficiency is absorbed.  The fuel only needs to exceed the context
length. -/
theorem delFix :
    ∀ (fuel : Nat) (ctx : Ctx) {h₀ h : Nat},
      ctx.len < fuel →
      CtxBal Color.black h₀ ctx Color.black (h + 1) →
      (deleteCase1 fuel ctx).before = ctx.before ∧
      (deleteCase1 fuel ctx).after = ctx.after ∧
      (deleteCase1 fuel ctx = Ctx.top ∨
        ∃ h₀', ∀ c', CtxBal Color.black h₀' (deleteCase1 fuel ctx) c' h) := by
  intro fuel
  induction fuel with
  | zero => intro ctx h₀ h hlen hctx; omega
  | succ F ih =>
      intro ctx h₀ h hlen hctx
      cases ctx with
      | top =>
          have e0 : deleteCase1 (F + 1) Ctx.top = Ctx.top := by
            simp [deleteCase1]
          rw [e0]
          exact ⟨rfl, rfl, Or.inl rfl⟩
      | left pc pk pvs S up =>
          cases hctx with
          | redL hS hup =>
              cases hS with
              | black hs1 hs2 =>
                  rename_i s1 s2 c1 c2 sk svs
                  have e1 : deleteCase1 (F + 1)
                        (Ctx.left Color.red pk pvs (RBNode.node Color.black s1 sk svs s2) up) =
                      deleteCase4
                        (Ctx.left Color.red pk pvs (RBNode.node Color.black s1 sk svs s2) up) := by
                    simp only [deleteCase1, deleteCase2, deleteCase3]
                    rw [if_neg (by simp)]
                  rw [e1]
                  obtain ⟨hb, ha, he⟩ := delCase4_left hs1 hs2 (Or.inl rfl)
                    (fun _ => hup) (fun (hc : Color.red = Color.black) => Color.noConfusion hc)
                  exact ⟨hb, ha, Or.inr he⟩
          | blackL hS hup =>
              rename_i cS
              cases hS with
              | red hsl hsr =>
                  rename_i sl sr sk svs
                  cases hsl with
                  | black ha hb =>
                      rename_i a b ca cb ak avs
                      have e1 : deleteCase1 (F + 1)
                            (Ctx.left Color.black pk pvs
                              (RBNode.node Color.red
                                (RBNode.node Color.black a ak avs b) sk svs sr) up) =
                          deleteCase4
                            (Ctx.left Color.red pk pvs (RBNode.node Color.black a ak avs b)
                              (Ctx.left Color.black sk svs sr up)) := by
                        simp only [deleteCase1, deleteCase2, deleteCase3]
                        rw [if_neg (by simp)]
                      rw [e1]
                      obtain ⟨hb', ha', he⟩ := delCase4_left ha hb (Or.inl rfl)
                        (fun _ => CtxBal.blackL hsr hup) (fun (hc : Color.red = Color.black) => Color.noConfusion hc)
                      refine ⟨?_, ?_, Or.inr he⟩
                      · rw [hb']; simp [Ctx.before]
                      · rw [ha']; simp [Ctx.after, inorder]
              | black hs1 hs2 =>
                  rename_i s1 s2 c1 c2 sk svs
                  by_cases hcc : c1 = Color.black ∧ c2 = Color.black
                  · obtain ⟨ec1, ec2⟩ := hcc
                    subst ec1; subst ec2
                    have e1 : deleteCase1 (F + 1)
                          (Ctx.left Color.black pk pvs
                            (RBNode.node Color.black s1 sk svs s2) up) =
                        Ctx.left Color.black pk pvs
                          (setColor (RBNode.node Color.black s1 sk svs s2) Color.red)
                          (deleteCase1 F up) := by
                      simp only [deleteCase1, deleteCase2, deleteCase3]
                      rw [if_pos ⟨trivial, rfl, hs1.nodeColor_eq, hs2.nodeColor_eq⟩]
                    rw [e1]
                    obtain ⟨ihb, iha, ihd⟩ := ih up
                      (by simp only [Ctx.len] at hlen; omega) hup
                    refine ⟨?_, ?_, Or.inr ?_⟩
                    · simp [Ctx.before, ihb]
                    · simp [Ctx.after, iha, inorder_setColor, setColor, inorder]
                    · rcases ihd with htop | ⟨h₀', f⟩
                      · rw [htop]
                        exact ⟨h + 1, fun c' =>
                          CtxBal.blackL (Balanced.red hs1 hs2) CtxBal.top⟩
                      · exact ⟨h₀', fun c' =>
                          CtxBal.blackL (Balanced.red hs1 hs2) (f Color.black)⟩
                  · have hred : c1 = Color.red ∨ c2 = Color.red := by
                      cases hc1 : c1 with
                      | red => exact Or.inl rfl
                      | black =>
                          cases hc2 : c2 with
                          | red => exact Or.inr rfl
                          | black => exact absurd ⟨hc1, hc2⟩ hcc
                    have e1 : deleteCase1 (F + 1)
                          (Ctx.left Color.black pk pvs
                            (RBNode.node Color.black s1 sk svs s2) up) =
                        deleteCase4
                          (Ctx.left Color.black pk pvs
                            (RBNode.node Color.black s1 sk svs s2) up) := by
                      simp only [deleteCase1, deleteCase2, deleteCase3]
                      rw [if_neg ?_]
                      intro hcond
                      rcases hred with h1 | h2
                      · have := hcond.2.2.1
                        simp only [leftOf] at this
                        rw [hs1.nodeColor_eq, h1] at this
                        exact Color.noConfusion this
                      · have := hcond.2.2.2
                        simp only [rightOf] at this
                        rw [hs2.nodeColor_eq, h2] at this
                        exact Color.noConfusion this
                    rw [e1]
                    obtain ⟨hb, ha, he⟩ := delCase4_left hs1 hs2 (Or.inr hred)
                      (fun (hc : Color.black = Color.red) => Color.noConfusion hc) (fun _ => hup)
                    exact ⟨hb, ha, Or.inr he⟩
      | right S pc pk pvs up =>
          cases hctx with
          | redR hS hup =>
              cases hS with
              | black hs1 hs2 =>
                  rename_i s1 s2 c1 c2 sk svs
                  have e1 : deleteCase1 (F + 1)
                        (Ctx.right (RBNode.node Color.black s1 sk svs s2) Color.red pk pvs up) =
                      deleteCase4
                        (Ctx.right (RBNode.node Color.black s1 sk svs s2) Color.red pk pvs up) := by
                    simp only [deleteCase1, deleteCase2, deleteCase3]
                    rw [if_neg (by simp)]
                  rw [e1]
                  obtain ⟨hb, ha, he⟩ := delCase4_right hs1 hs2 (Or.inl rfl)
                    (fun _ => hup) (fun (hc : Color.red = Color.black) => Color.noConfusion hc)
                  exact ⟨hb, ha, Or.inr he⟩
          | blackR hS hup =>
              rename_i cS
              cases hS with
              | red hsl hsr =>
                  rename_i sl sr sk svs
                  cases hsr with
                  | black ha hb =>
                      rename_i a b ca cb ak avs
                      have e1 : deleteCase1 (F + 1)
                            (Ctx.right
                              (RBNode.node Color.red sl sk svs
                                (RBNode.node Color.black a ak avs b)) Color.black pk pvs up) =
                          deleteCase4
                            (Ctx.right (RBNode.node Color.black a ak avs b) Color.red pk pvs
                              (Ctx.right sl Color.black sk svs up)) := by
                        simp only [deleteCase1, deleteCase2, deleteCase3]
                        rw [if_neg (by simp)]
                      rw [e1]
                      obtain ⟨hb', ha', he⟩ := delCase4_right ha hb (Or.inl rfl)
                        (fun _ => CtxBal.blackR hsl hup) (fun (hc : Color.red = Color.black) => Color.noConfusion hc)
                      refine ⟨?_, ?_, Or.inr he⟩
                      · rw [hb']; simp [Ctx.before, inorder]
                      · rw [ha']; simp [Ctx.after]
              | black hs1 hs2 =>
                  rename_i s1 s2 c1 c2 sk svs
                  by_cases hcc : c1 = Color.black ∧ c2 = Color.black
                  · obtain ⟨ec1, ec2⟩ := hcc
                    subst ec1; subst ec2
                    have e1 : deleteCase1 (F + 1)
                          (Ctx.right (RBNode.node Color.black s1 sk svs s2)
                            Color.black pk pvs up) =
                        Ctx.right
                          (setColor (RBNode.node Color.black s1 sk svs s2) Color.red)
                          Color.black pk pvs (deleteCase1 F up) := by
                      simp only [deleteCase1, deleteCase2, deleteCase3]
                      rw [if_pos ⟨trivial, rfl, hs1.nodeColor_eq, hs2.nodeColor_eq⟩]
                    rw [e1]
                    obtain ⟨ihb, iha, ihd⟩ := ih up
                      (by simp only [Ctx.len] at hlen; omega) hup
                    refine ⟨?_, ?_, Or.inr ?_⟩
                    · simp [Ctx.before, ihb, setColor, inorder]
                    · simp [Ctx.after, iha]
                    · rcases ihd with htop | ⟨h₀', f⟩
                      · rw [htop]
                        exact ⟨h + 1, fun c' =>
                          CtxBal.blackR (Balanced.red hs1 hs2) CtxBal.top⟩
                      · exact ⟨h₀', fun c' =>
                          CtxBal.blackR (Balanced.red hs1 hs2) (f Color.black)⟩
                  · have hred : c1 = Color.red ∨ c2 = Color.red := by
                      cases hc1 : c1 with
                      | red => exact Or.inl rfl
                      | black =>
                          cases hc2 : c2 with
                          | red => exact Or.inr rfl
                          | black => exact absurd ⟨hc1, hc2⟩ hcc
                    have e1 : deleteCase1 (F + 1)
                          (Ctx.right (RBNode.node Color.black s1 sk svs s2)
                            Color.black pk pvs up) =
                        deleteCase4
                          (Ctx.right (RBNode.node Color.black s1 sk svs s2)
                            Color.black pk pvs up) := by
                      simp only [deleteCase1, deleteCase2, deleteCase3]
                      rw [if_neg ?_]
                      intro hcond
                      rcases hred with h1 | h2
                      · have := hcond.2.2.1
                        simp only [leftOf] at this
                        rw [hs1.nodeColor_eq, h1] at this
                        exact Color.noConfusion this
                      · have := hcond.2.2.2
                        simp only [rightOf] at this
                        rw [hs2.nodeColor_eq, h2] at this
                        exact Color.noConfusion this
                    rw [e1]
                    obtain ⟨hb, ha, he⟩ := delCase4_right hs1 hs2 (Or.inr hred)
                      (fun (hc : Color.black = Color.red) => Color.noConfusion hc) (fun _ => hup)
                    exact ⟨hb, ha, Or.inr he⟩

/-! ## Zoom lemmas: `lookupZip` and `maxZip` -/

/-- The value list of a node (`nil` has none). -/
def valsOfN : RBNode → List Value
  | RBNode.nil => []
  | RBNode.node _ _ _ vs _ => vs

theorem maxZip_fst : ∀ (x : RBNode) (fr : Ctx), (maxZip x fr).1 = maximumNode x
  | RBNode.nil, _ => rfl
  | RBNode.node _ _ _ _ RBNode.nil, _ => rfl
  | RBNode.node c l k vs (RBNode.node rc rl rk rvs rr), fr =>
      maxZip_fst (RBNode.node rc rl rk rvs rr) (Ctx.right l c k vs fr)

theorem maxZip_after : ∀ (x : RBNode) (fr : Ctx), (maxZip x fr).2.after = fr.after
  | RBNode.nil, _ => rfl
  | RBNode.node _ _ _ _ RBNode.nil, _ => rfl
  | RBNode.node c l k vs (RBNode.node rc rl rk rvs rr), fr =>
      maxZip_after (RBNode.node rc rl rk rvs rr) (Ctx.right l c k vs fr)

theorem maxZip_before : ∀ (x : RBNode) (fr : Ctx), x ≠ RBNode.nil →
    (maxZip x fr).2.before ++ inorder (maxZip x fr).1 = fr.before ++ inorder x
  | RBNode.nil, _, hne => absurd rfl hne
  | RBNode.node _ _ _ _ RBNode.nil, _, _ => rfl
  | RBNode.node c l k vs (RBNode.node rc rl rk rvs rr), fr, _ => by
      have ih := maxZip_before (RBNode.node rc rl rk rvs rr)
        (Ctx.right l c k vs fr) (by simp)
      simp only [maxZip]
      rw [ih]
      simp [Ctx.before, inorder]

theorem maxZip_shape : ∀ (x : RBNode) (fr : Ctx), x ≠ RBNode.nil →
    ∃ mc ml mk mvs, (maxZip x fr).1 = RBNode.node mc ml mk mvs RBNode.nil
  | RBNode.nil, _, hne => absurd rfl hne
  | RBNode.node c l k vs RBNode.nil, _, _ => ⟨c, l, k, vs, rfl⟩
  | RBNode.node c l k vs (RBNode.node rc rl rk rvs rr), fr, _ =>
      maxZip_shape (RBNode.node rc rl rk rvs rr) (Ctx.right l c k vs fr) (by simp)

theorem maxZip_bal : ∀ (x : RBNode) (fr : Ctx) {cx : Color} {hx h₀ : Nat},
    Balanced x cx hx → CtxBal Color.black h₀ fr cx hx →
    ∃ cm hm, Balanced (maxZip x fr).1 cm hm ∧
      CtxBal Color.black h₀ (maxZip x fr).2 cm hm := by
  intro x
  induction x with
  | nil => intro fr cx hx h₀ hb hc; exact ⟨_, _, hb, hc⟩
  | node c l k vs r ihl ihr =>
      intro fr cx hx h₀ hb hc
      cases r with
      | nil => exact ⟨_, _, hb, hc⟩
      | node rc rl rk rvs rr =>
          cases hb with
          | red hl hr =>
              exact ihr (Ctx.right l Color.red k vs fr) hr (CtxBal.redR hl hc)
          | black hl hr =>
              exact ihr (Ctx.right l Color.black k vs fr) hr (CtxBal.blackR hl hc)

theorem lookupZip_plug : ∀ (n : RBNode) (ctx : Ctx) (key : Int) {m : RBNode} {ctx' : Ctx},
    lookupZip n ctx key = some (m, ctx') → ctx'.plug m = ctx.plug n := by
  intro n
  induction n with
  | nil => intro ctx key m ctx' he; exact absurd he (by simp [lookupZip])
  | node c l k vs r ihl ihr =>
      intro ctx key m ctx' he
      simp only [lookupZip] at he
      split at he
      · cases he; rfl
      · split at he
        · exact ihl _ key he
        · exact ihr _ key he

theorem lookupZip_shape : ∀ (n : RBNode) (ctx : Ctx) (key : Int) {m : RBNode} {ctx' : Ctx},
    lookupZip n ctx key = some (m, ctx') →
    ∃ mc ml mvs mr, m = RBNode.node mc ml key mvs mr := by
  intro n
  induction n with
  | nil => intro ctx key m ctx' he; exact absurd he (by simp [lookupZip])
  | node c l k vs r ihl ihr =>
      intro ctx key m ctx' he
      simp only [lookupZip] at he
      split at he
      · rename_i hcmp
        cases he
        exact ⟨c, l, vs, r, by rw [comparator_eq_zero.mp hcmp]⟩
      · split at he
        · exact ihl _ key he
        · exact ihr _ key he

theorem lookupZip_bal : ∀ (n : RBNode) (ctx : Ctx) (key : Int) {m : RBNode} {ctx' : Ctx}
    {c : Color} {h h₀ : Nat},
    Balanced n c h → CtxBal Color.black h₀ ctx c h →
    lookupZip n ctx key = some (m, ctx') →
    ∃ cm hm, Balanced m cm hm ∧ CtxBal Color.black h₀ ctx' cm hm := by
  intro n
  induction n with
  | nil => intro ctx key m ctx' c h h₀ hb hc he; exact absurd he (by simp [lookupZip])
  | node nc l k vs r ihl ihr =>
      intro ctx key m ctx' c h h₀ hb hc he
      simp only [lookupZip] at he
      split at he
      · cases he; exact ⟨_, _, hb, hc⟩
      · split at he
        · cases hb with
          | red hl hr => exact ihl _ key hl (CtxBal.redL hr hc) he
          | black hl hr => exact ihl _ key hl (CtxBal.blackL hr hc) he
        · cases hb with
          | red hl hr => exact ihr _ key hr (CtxBal.redR hl hc) he
          | black hl hr => exact ihr _ key hr (CtxBal.blackR hl hc) he

theorem lookupZip_none : ∀ (n : RBNode) (ctx : Ctx) (key : Int),
    lookupZip n ctx key = none ↔ lookup n key = none := by
  intro n
  induction n with
  | nil => intro ctx key; simp [lookupZip, lookup]
  | node c l k vs r ihl ihr =>
      intro ctx key
      simp only [lookupZip, lookup]
      split
      · simp
      · split
        · exact ihl _ key
        · exact ihr _ key

theorem lookupZip_values : ∀ (n : RBNode) (ctx : Ctx) (key : Int) {m : RBNode} {ctx' : Ctx},
    lookupZip n ctx key = some (m, ctx') → lookup n key = some (valsOfN m) := by
  intro n
  induction n with
  | nil => intro ctx key m ctx' he; exact absurd he (by simp [lookupZip])
  | node c l k vs r ihl ihr =>
      intro ctx key m ctx' he
      simp only [lookupZip] at he
      simp only [lookup]
      split at he
      · rename_i hcmp
        cases he
        rw [if_pos hcmp]
        rfl
      · rename_i hcmp
        split at he
        · rename_i hlt
          rw [if_neg hcmp, if_pos hlt]
          exact ihl _ key he
        · rename_i hlt
          rw [if_neg hcmp, if_neg hlt]
          exact ihr _ key he

/-! ## `Remove`: balance and contents -/

theorem setColor_black_bal {t : RBNode} {c : Color} {h : Nat}
    (hb : Balanced t c h) : ∃ h', Balanced (setColor t Color.black) Color.black h' := by
  cases hb with
  | nil => exact ⟨0, Balanced.nil⟩
  | red hl hr => exact ⟨_, Balanced.black hl hr⟩
  | black hl hr => exact ⟨_, Balanced.black hl hr⟩

/-- The splice phase of `Tree.Remove` on a node with at most one child:
the result is balanced, its in-order pairs are the context's trimmings
around the node's children, and its size is the given one. -/
theorem spliceOut_spec {sz : Int} {mc : Color} {ml mr : RBNode} {mk : Int}
    {mvs : List Value} {ctx2 : Ctx} {cm : Color} {hm h₀ : Nat}
    (hone : ml = RBNode.nil ∨ mr = RBNode.nil)
    (hb : Balanced (RBNode.node mc ml mk mvs mr) cm hm)
    (hc : CtxBal Color.black h₀ ctx2 cm hm) :
    (∃ h₁, Balanced (spliceOut sz (RBNode.node mc ml mk mvs mr) ctx2).root Color.black h₁) ∧
    inorder (spliceOut sz (RBNode.node mc ml mk mvs mr) ctx2).root
      = ctx2.before ++ (inorder ml ++ inorder mr) ++ ctx2.after ∧
    (spliceOut sz (RBNode.node mc ml mk mvs mr) ctx2).size = sz := by
  cases hb with
  | red hl hr =>
      -- a red node with at most one child has two nil children
      have hml : ml = RBNode.nil := by
        rcases hone with h1 | h1
        · exact h1
        · subst h1
          cases hr
          exact hl.black_zero
      have hmr : mr = RBNode.nil := by
        rcases hone with h1 | h1
        · subst h1
          cases hl
          exact hr.black_zero
        · exact h1
      subst hml; subst hmr
      cases hl
      -- `mc = red`: the fix-up is skipped, the nil child replaces the node
      simp only [spliceOut, if_pos (Or.inl rfl), reduceIte, reduceCtorEq]
      cases hct : ctx2 with
      | top =>
          subst hct
          exact ⟨⟨0, Balanced.nil⟩, rfl, rfl⟩
      | left pc pk pvs sib up =>
          subst hct
          refine ⟨⟨h₀, ((hc.recolor_black Color.black).plug Balanced.nil)⟩, ?_, rfl⟩
          simp [inorder_plug, inorder]
      | right sib pc pk pvs up =>
          subst hct
          refine ⟨⟨h₀, ((hc.recolor_black Color.black).plug Balanced.nil)⟩, ?_, rfl⟩
          simp [inorder_plug, inorder]
  | black hl hr =>
      rename_i cl cr h'
      -- one child is nil, so the other has black-height 0
      have hzero : h' = 0 := by
        rcases hone with h1 | h1
        · subst h1; cases hl; rfl
        · subst h1; cases hr; rfl
      subst hzero
      -- `mc = black`: run the fix-up before unlinking
      obtain ⟨dbef, daft, ddisj⟩ :=
        delFix (ctx2.len + 1) ctx2 (by omega) hc
      have hchild : ∃ cc, Balanced (if mr = RBNode.nil then ml else mr) cc 0 := by
        by_cases hmr : mr = RBNode.nil
        · rw [if_pos hmr]; exact ⟨cl, hl⟩
        · rw [if_neg hmr]; exact ⟨cr, hr⟩
      obtain ⟨cc, hcc⟩ := hchild
      have hchi : inorder (if mr = RBNode.nil then ml else mr) = inorder ml ++ inorder mr := by
        by_cases hmr : mr = RBNode.nil
        · subst hmr; rw [if_pos rfl]; simp [inorder]
        · rcases hone with h1 | h1
          · subst h1; rw [if_neg hmr]; simp [inorder]
          · exact absurd h1 hmr
      simp only [spliceOut, if_pos hone, reduceIte]
      cases hct : deleteCase1 (ctx2.len + 1) ctx2 with
      | top =>
          rw [hct] at dbef daft
          refine ⟨?_, ?_, rfl⟩
          · exact setColor_black_bal hcc
          · rw [inorder_setColor, hchi]
            have hb2 : ctx2.before = [] := by
              rw [← dbef]; rfl
            have ha2 : ctx2.after = [] := by
              rw [← daft]; rfl
            simp [hb2, ha2]
      | left pc pk pvs sib up =>
          rw [hct] at dbef daft ddisj
          rcases ddisj with htop | ⟨h₀', f⟩
          · exact absurd htop (by simp)
          · refine ⟨⟨h₀', (f cc).plug hcc⟩, ?_, rfl⟩
            rw [inorder_plug, dbef, daft, hchi]
      | right sib pc pk pvs up =>
          rw [hct] at dbef daft ddisj
          rcases ddisj with htop | ⟨h₀', f⟩
          · exact absurd htop (by simp)
          · refine ⟨⟨h₀', (f cc).plug hcc⟩, ?_, rfl⟩
            rw [inorder_plug, dbef, daft, hchi]

/-- Common tail of the two-children path of `Tree.Remove`: splice out the
in-order predecessor (the `maxZip` focus) after the key/values copy. -/
theorem remove_twochild_aux {h₀ hx : Nat} {mcX clX : Color} {ml mr : RBNode}
    {mml mmr : RBNode} {mmc : Color} {mmk : Int} {mmvs : List Value}
    {ctx0 : Ctx} {sz : Int}
    (hne : ml ≠ RBNode.nil)
    (hmx : maximumNode ml = RBNode.node mmc mml mmk mmvs mmr)
    (hl : Balanced ml clX hx)
    (hfrd : CtxBal Color.black h₀ (Ctx.left mcX mmk mmvs mr ctx0) clX hx) :
    (∃ h₁, Balanced
      (spliceOut sz (maxZip ml (Ctx.left mcX mmk mmvs mr ctx0)).1
        (maxZip ml (Ctx.left mcX mmk mmvs mr ctx0)).2).root Color.black h₁) ∧
    inorder (spliceOut sz (maxZip ml (Ctx.left mcX mmk mmvs mr ctx0)).1
        (maxZip ml (Ctx.left mcX mmk mmvs mr ctx0)).2).root
      = ctx0.before ++ inorder ml ++ inorder mr ++ ctx0.after ∧
    (spliceOut sz (maxZip ml (Ctx.left mcX mmk mmvs mr ctx0)).1
        (maxZip ml (Ctx.left mcX mmk mmvs mr ctx0)).2).size = sz := by
  have hfst := maxZip_fst ml (Ctx.left mcX mmk mmvs mr ctx0)
  obtain ⟨qc, ql, qk, qvs, hq⟩ := maxZip_shape ml (Ctx.left mcX mmk mmvs mr ctx0) hne
  have hq3 : (maxZip ml (Ctx.left mcX mmk mmvs mr ctx0)).1 =
      RBNode.node mmc mml mmk mmvs RBNode.nil := by
    have h5 := hq.symm.trans (hfst.trans hmx)
    obtain ⟨_, _, _, _, e5⟩ := RBNode.node.inj h5
    rw [hfst, hmx, ← e5]
  obtain ⟨cq, hqh, hbq, hcq⟩ := maxZip_bal ml (Ctx.left mcX mmk mmvs mr ctx0) hl hfrd
  rw [hq3] at hbq
  obtain ⟨hbal, hinor, hsz⟩ := spliceOut_spec (Or.inr rfl) hbq hcq
  rw [hq3]
  refine ⟨hbal, ?_, hsz⟩
  rw [hinor]
  have hbef := maxZip_before ml (Ctx.left mcX mmk mmvs mr ctx0) hne
  rw [hq3] at hbef
  have haft := maxZip_after ml (Ctx.left mcX mmk mmvs mr ctx0)
  rw [haft]
  simp only [inorder, Ctx.before, Ctx.after] at hbef ⊢
  have h7 := congrArg (· ++ (inorder mr ++ ctx0.after)) hbef
  simp only [List.append_assoc] at h7 ⊢
  simpa using h7

/-- `Tree.Remove`: preserves balance; an absent key is a no-op, a present
key's entry is removed from the in-order pairs and its value count is
subtracted from `size`. -/
theorem remove_spec {t : Tree} {key : Int} {h₀ : Nat}
    (hb : Balanced t.root Color.black h₀) :
    (∃ h₁, Balanced (t.remove key).root Color.black h₁) ∧
    ((lookup t.root key = none ∧ t.remove key = t) ∨
      ∃ vs X Y, lookup t.root key = some vs ∧
        inorder t.root = X ++ (key, vs) :: Y ∧
        inorder (t.remove key).root = X ++ Y ∧
        (t.remove key).size = t.size - vs.length) := by
  cases he : lookupZip t.root Ctx.top key with
  | none =>
      have hrm : t.remove key = t := by simp only [Tree.remove, he]
      rw [hrm]
      exact ⟨⟨h₀, hb⟩, Or.inl ⟨(lookupZip_none t.root Ctx.top key).mp he, rfl⟩⟩
  | some p =>
      obtain ⟨m, ctx0⟩ := p
      obtain ⟨mc, ml, mvs, mr, hmeq⟩ := lookupZip_shape t.root Ctx.top key he
      subst hmeq
      obtain ⟨cm, hmh, hbm, hcm⟩ := lookupZip_bal t.root Ctx.top key hb CtxBal.top he
      have hplug := lookupZip_plug t.root Ctx.top key he
      have hio : inorder t.root =
          ctx0.before ++ (inorder ml ++ (key, mvs) :: inorder mr) ++ ctx0.after := by
        have h1 : inorder t.root = inorder (ctx0.plug (RBNode.node mc ml key mvs mr)) := by
          rw [hplug]; rfl
        rw [h1, inorder_plug]
        simp [inorder]
      have hlk : lookup t.root key = some mvs := lookupZip_values t.root Ctx.top key he
      simp only [Tree.remove, he]
      by_cases h2 : ml ≠ RBNode.nil ∧ mr ≠ RBNode.nil
      · rw [if_pos h2]
        cases hmx : maximumNode ml with
        | nil =>
            obtain ⟨qc, ql, qk, qvs, hq⟩ := maxZip_shape ml
              (Ctx.left mc key mvs mr ctx0) h2.1
            have h5 := (maxZip_fst ml (Ctx.left mc key mvs mr ctx0)).symm.trans hq
            rw [hmx] at h5
            exact absurd h5 (by simp)
        | node mmc mml mmk mmvs mmr =>
            have haux : (∃ h₁, Balanced
                  (spliceOut (t.size - (mvs.length : Int))
                    (maxZip ml (Ctx.left mc mmk mmvs mr ctx0)).1
                    (maxZip ml (Ctx.left mc mmk mmvs mr ctx0)).2).root Color.black h₁) ∧
                inorder (spliceOut (t.size - (mvs.length : Int))
                    (maxZip ml (Ctx.left mc mmk mmvs mr ctx0)).1
                    (maxZip ml (Ctx.left mc mmk mmvs mr ctx0)).2).root
                  = ctx0.before ++ inorder ml ++ inorder mr ++ ctx0.after ∧
                (spliceOut (t.size - (mvs.length : Int))
                    (maxZip ml (Ctx.left mc mmk mmvs mr ctx0)).1
                    (maxZip ml (Ctx.left mc mmk mmvs mr ctx0)).2).size
                  = t.size - (mvs.length : Int) := by
              cases hbm with
              | red hl hr =>
                  exact remove_twochild_aux h2.1 hmx hl (CtxBal.redL hr hcm)
              | black hl hr =>
                  exact remove_twochild_aux h2.1 hmx hl (CtxBal.blackL hr hcm)
            obtain ⟨hbal, hinor, hsz⟩ := haux
            refine ⟨hbal, Or.inr ⟨mvs, ctx0.before ++ inorder ml,
              inorder mr ++ ctx0.after, hlk, ?_, ?_, hsz⟩⟩
            · rw [hio]; simp [List.append_assoc]
            · rw [hinor]; simp [List.append_assoc]
      · have hone : ml = RBNode.nil ∨ mr = RBNode.nil := by
          rcases eq_or_ne ml RBNode.nil with h3 | h3
          · exact Or.inl h3
          · rcases eq_or_ne mr RBNode.nil with h4 | h4
            · exact Or.inr h4
            · exact absurd ⟨h3, h4⟩ h2
        rw [if_neg h2]
        obtain ⟨hbal, hinor, hsz⟩ := spliceOut_spec hone hbm hcm
        refine ⟨hbal, Or.inr ⟨mvs, ctx0.before ++ inorder ml,
          inorder mr ++ ctx0.after, hlk, ?_, ?_, hsz⟩⟩
        · rw [hio]; simp [List.append_assoc]
        · rw [hinor]; simp [List.append_assoc]

/-! ## `Put`: balance and contents -/

theorem Balanced.revalue {c0 c1 : Color} {l r : RBNode} {k : Int}
    {vs vs2 : List Value} {h : Nat} :
    Balanced (RBNode.node c0 l k vs r) c1 h →
    Balanced (RBNode.node c0 l k vs2 r) c1 h := by
  intro hb
  cases hb with
  | red a b => exact Balanced.red a b
  | black a b => exact Balanced.black a b

theorem putAt_bal : ∀ (n : RBNode) (ctx : Ctx) (key : Int) (value : Value)
    {c : Color} {h h₀ : Nat},
    Balanced n c h → CtxBal Color.black h₀ ctx c h →
    ∃ h₁, Balanced (putAt n ctx key value).1 Color.black h₁ := by
  intro n
  induction n with
  | nil =>
      intro ctx key value c h h₀ hb hc
      cases hb
      simp only [putAt]
      exact insertCase1_bal hc (Balanced.red Balanced.nil Balanced.nil)
  | node c l k vs r ihl ihr =>
      intro ctx key value cb h h₀ hb hc
      simp only [putAt]
      split
      · split
        · exact ⟨h₀, hc.plug hb⟩
        · exact ⟨h₀, hc.plug hb.revalue⟩
      · split
        · cases hb with
          | red hl hr => exact ihl _ key value hl (CtxBal.redL hr hc)
          | black hl hr => exact ihl _ key value hl (CtxBal.blackL hr hc)
        · cases hb with
          | red hl hr => exact ihr _ key value hr (CtxBal.redR hl hc)
          | black hl hr => exact ihr _ key value hr (CtxBal.blackR hl hc)

/-- The list-level model of `Put` on the in-order pairs: insert at the
sorted position, or update (dedup / append) an existing key's list. -/
def putList : List (Int × List Value) → Int → Value → List (Int × List Value)
  | [], key, v => [(key, [v])]
  | (k, vs) :: rest, key, v =>
      if key = k then
        if vs.any (fun w => w.id = v.id) then (k, vs) :: rest
        else (k, vs ++ [v]) :: rest
      else if key < k then (key, [v]) :: (k, vs) :: rest
      else (k, vs) :: putList rest key v

/-- The list-level model of the size increment of `Put`. -/
def putDelta : List (Int × List Value) → Int → Value → Int
  | [], _, _ => 1
  | (k, vs) :: rest, key, v =>
      if key = k then (if vs.any (fun w => w.id = v.id) then 0 else 1)
      else if key < k then 1
      else putDelta rest key v

theorem putList_append_lt {key k : Int} {v : Value} {vs : List Value} :
    ∀ (xs ys : List (Int × List Value)), key < k →
      putList (xs ++ (k, vs) :: ys) key v = putList xs key v ++ (k, vs) :: ys := by
  intro xs
  induction xs with
  | nil =>
      intro ys hlt
      simp only [putList, List.nil_append]
      rw [if_neg (by omega), if_pos hlt]
      rfl
  | cons a rest ih =>
      intro ys hlt
      obtain ⟨ak, avs⟩ := a
      simp only [putList, List.cons_append, List.append_eq]
      split
      · split <;> simp
      · split
        · simp
        · rw [ih ys hlt]
          simp

theorem putDelta_append_lt {key k : Int} {v : Value} {vs : List Value} :
    ∀ (xs ys : List (Int × List Value)), key < k →
      putDelta (xs ++ (k, vs) :: ys) key v = putDelta xs key v := by
  intro xs
  induction xs with
  | nil =>
      intro ys hlt
      simp only [putDelta, List.nil_append]
      rw [if_neg (by omega), if_pos hlt]
  | cons a rest ih =>
      intro ys hlt
      obtain ⟨ak, avs⟩ := a
      simp only [putDelta, List.cons_append, List.append_eq]
      split
      · rfl
      · split
        · rfl
        · exact ih ys hlt

theorem putList_append_gt {key k : Int} {v : Value} {vs : List Value} :
    ∀ (xs ys : List (Int × List Value)), k < key → (∀ a ∈ xs, a.1 < key) →
      putList (xs ++ (k, vs) :: ys) key v = xs ++ (k, vs) :: putList ys key v := by
  intro xs
  induction xs with
  | nil =>
      intro ys hgt _
      simp only [putList, List.nil_append]
      rw [if_neg (by omega), if_neg (by omega)]
  | cons a rest ih =>
      intro ys hgt hall
      obtain ⟨ak, avs⟩ := a
      have hak : ak < key := hall (ak, avs) (by simp)
      simp only [putList, List.cons_append, List.append_eq]
      rw [if_neg (by omega), if_neg (by omega),
        ih ys hgt (fun b hb => hall b (by simp [hb]))]

theorem putDelta_append_gt {key k : Int} {v : Value} {vs : List Value} :
    ∀ (xs ys : List (Int × List Value)), k < key → (∀ a ∈ xs, a.1 < key) →
      putDelta (xs ++ (k, vs) :: ys) key v = putDelta ys key v := by
  intro xs
  induction xs with
  | nil =>
      intro ys hgt _
      simp only [putDelta, List.nil_append]
      rw [if_neg (by omega), if_neg (by omega)]
  | cons a rest ih =>
      intro ys hgt hall
      obtain ⟨ak, avs⟩ := a
      have hak : ak < key := hall (ak, avs) (by simp)
      simp only [putDelta, List.cons_append, List.append_eq]
      rw [if_neg (by omega), if_neg (by omega)]
      exact ih ys hgt (fun b hb => hall b (by simp [hb]))

theorem putList_append_eq {k : Int} {v : Value} {vs : List Value} :
    ∀ (xs ys : List (Int × List Value)), (∀ a ∈ xs, a.1 < k) →
      putList (xs ++ (k, vs) :: ys) k v =
        xs ++ (if vs.any (fun w => w.id = v.id) then (k, vs) :: ys
               else (k, vs ++ [v]) :: ys) := by
  intro xs
  induction xs with
  | nil =>
      intro ys _
      simp only [putList, List.nil_append, if_true]
  | cons a rest ih =>
      intro ys hall
      obtain ⟨ak, avs⟩ := a
      have hak : ak < k := hall (ak, avs) (by simp)
      simp only [putList, List.cons_append, List.append_eq]
      rw [if_neg (by omega), if_neg (by omega),
        ih ys (fun b hb => hall b (by simp [hb]))]

theorem putDelta_append_eq {k : Int} {v : Value} {vs : List Value} :
    ∀ (xs ys : List (Int × List Value)), (∀ a ∈ xs, a.1 < k) →
      putDelta (xs ++ (k, vs) :: ys) k v =
        (if vs.any (fun w => w.id = v.id) then 0 else 1) := by
  intro xs
  induction xs with
  | nil =>
      intro ys _
      simp only [putDelta, List.nil_append, if_true]
  | cons a rest ih =>
      intro ys hall
      obtain ⟨ak, avs⟩ := a
      have hak : ak < k := hall (ak, avs) (by simp)
      simp only [putDelta, List.cons_append, List.append_eq]
      rw [if_neg (by omega), if_neg (by omega)]
      exact ih ys (fun b hb => hall b (by simp [hb]))

/-- The keys of the left subtree are below the node key, read off the
`orderedB` checker. -/
theorem orderedB_node {c : Color} {l r : RBNode} {k : Int} {vs : List Value}
    (ho : orderedB (RBNode.node c l k vs r) = true) :
    (∀ a ∈ inorder l, a.1 < k) ∧ (∀ a ∈ inorder r, k < a.1) ∧
      orderedB l = true ∧ orderedB r = true := by
  simp only [orderedB, Bool.and_eq_true, decide_eq_true_eq] at ho
  obtain ⟨⟨⟨h1, h2⟩, h3⟩, h4⟩ := ho
  refine ⟨?_, ?_, h3, h4⟩
  · intro a ha
    exact h1 a.1 (List.mem_map_of_mem Prod.fst ha)
  · intro a ha
    exact h2 a.1 (List.mem_map_of_mem Prod.fst ha)

/-- `putAt` computes, on the in-order pairs, exactly the list-level `Put`:
sorted-position insertion with identity de-duplication, with the matching
size increment. -/
theorem putAt_spec : ∀ (n : RBNode) (ctx : Ctx) (key : Int) (value : Value),
    orderedB n = true →
    inorder (putAt n ctx key value).1
        = ctx.before ++ putList (inorder n) key value ++ ctx.after ∧
    (putAt n ctx key value).2 = putDelta (inorder n) key value := by
  intro n
  induction n with
  | nil =>
      intro ctx key value _
      simp only [putAt, putList, putDelta, inorder]
      exact ⟨by rw [insertCase1_inorder]; simp [inorder], trivial⟩
  | node c l k vs r ihl ihr =>
      intro ctx key value ho
      obtain ⟨hlk, hrk, hol, hor⟩ := orderedB_node ho
      simp only [putAt, inorder]
      split
      · rename_i hcmp
        have hklt : key = k := comparator_eq_zero.mp hcmp
        subst hklt
        rw [putList_append_eq (inorder l) (inorder r) hlk,
          putDelta_append_eq (inorder l) (inorder r) hlk]
        split
        · exact ⟨by rw [inorder_plug]; simp [inorder], rfl⟩
        · exact ⟨by rw [inorder_plug]; simp [inorder], rfl⟩
      · rename_i hcmp
        split
        · rename_i hlt
          have hklt : key < k := comparator_lt_zero.mp hlt
          obtain ⟨ih1, ih2⟩ := ihl (Ctx.left c k vs r ctx) key value hol
          rw [putList_append_lt (inorder l) (inorder r) hklt,
            putDelta_append_lt (inorder l) (inorder r) hklt]
          refine ⟨?_, ih2⟩
          rw [ih1]
          simp [Ctx.before, Ctx.after, List.append_assoc]
        · rename_i hlt
          have hkgt : k < key := by
            have h1 : ¬ key = k := fun he => hcmp (comparator_eq_zero.mpr he)
            have h2 : ¬ key < k := fun hl => hlt (comparator_lt_zero.mpr hl)
            omega
          obtain ⟨ih1, ih2⟩ := ihr (Ctx.right l c k vs ctx) key value hor
          rw [putList_append_gt (inorder l) (inorder r) hkgt
              (fun a ha => lt_trans (hlk a ha) hkgt),
            putDelta_append_gt (inorder l) (inorder r) hkgt
              (fun a ha => lt_trans (hlk a ha) hkgt)]
          refine ⟨?_, ih2⟩
          rw [ih1]
          simp [Ctx.before, Ctx.after, List.append_assoc]

/-! ## Order, membership, and size at the list level -/

/-- Strict ascending key order of an in-order pair list. -/
def keySorted (l : List (Int × List Value)) : Prop :=
  List.Pairwise (fun a b : Int × List Value => a.1 < b.1) l

theorem orderedB_iff : ∀ (t : RBNode), orderedB t = true ↔ keySorted (inorder t) := by
  intro t
  induction t with
  | nil => simp [orderedB, inorder, keySorted]
  | node c l k vs r ihl ihr =>
      constructor
      · intro ho
        obtain ⟨h1, h2, h3, h4⟩ := orderedB_node ho
        simp only [keySorted, inorder, List.pairwise_append, List.pairwise_cons]
        refine ⟨ihl.mp h3, ⟨fun b hb => h2 b hb, ihr.mp h4⟩, ?_⟩
        intro x hx y hy
        rcases List.mem_cons.mp hy with hy1 | hy2
        · rw [hy1]; exact h1 x hx
        · exact lt_trans (h1 x hx) (h2 y hy2)
      · intro hs
        simp only [keySorted, inorder, List.pairwise_append, List.pairwise_cons] at hs
        obtain ⟨hpl, ⟨hck, hpr⟩, hcross⟩ := hs
        simp only [orderedB, Bool.and_eq_true, decide_eq_true_eq]
        refine ⟨⟨⟨?_, ?_⟩, ihl.mpr hpl⟩, ihr.mpr hpr⟩
        · intro k1 hk1
          obtain ⟨a, ha, hae⟩ := List.mem_map.mp hk1
          rw [← hae]
          exact hcross a ha (k, vs) (by simp)
        · intro k1 hk1
          obtain ⟨a, ha, hae⟩ := List.mem_map.mp hk1
          rw [← hae]
          exact hck a ha

/-- Keys of the list-level `Put` result. -/
theorem putList_keys : ∀ (l : List (Int × List Value)) (key : Int) (v : Value) (a : Int),
    a ∈ (putList l key v).map Prod.fst ↔ a = key ∨ a ∈ l.map Prod.fst := by
  intro l key v
  induction l with
  | nil => intro a; simp [putList]
  | cons p rest ih =>
      intro a
      obtain ⟨pk, pvs⟩ := p
      simp only [putList]
      split
      · rename_i he
        subst he
        split <;> simp
      · split
        · simp [or_comm, or_assoc, or_left_comm]
        · simp only [List.map_cons, List.mem_cons, ih a]
          constructor
          · rintro (h1 | h2)
            · exact Or.inr (Or.inl h1)
            · rcases h2 with h3 | h4
              · exact Or.inl h3
              · exact Or.inr (Or.inr h4)
          · rintro (h1 | h2 | h3)
            · exact Or.inr (Or.inl h1)
            · exact Or.inl h2
            · exact Or.inr (Or.inr h3)

/-- The list-level `Put` preserves strict key order. -/
theorem putList_sorted : ∀ (l : List (Int × List Value)) (key : Int) (v : Value),
    keySorted l → keySorted (putList l key v) := by
  intro l key v
  induction l with
  | nil => intro _; simp [putList, keySorted]
  | cons p rest ih =>
      intro hs
      obtain ⟨pk, pvs⟩ := p
      simp only [keySorted, List.pairwise_cons] at hs
      obtain ⟨hhead, htail⟩ := hs
      simp only [putList]
      split
      · split
        · exact List.Pairwise.cons hhead htail
        · exact List.Pairwise.cons hhead htail
      · rename_i hne
        split
        · rename_i hklt
          refine List.Pairwise.cons ?_ (List.Pairwise.cons hhead htail)
          intro b hb
          rcases List.mem_cons.mp hb with h1 | h2
          · rw [h1]; exact hklt
          · exact lt_trans hklt (hhead b h2)
        · rename_i hkge
          have hgt : pk < key := by omega
          refine List.Pairwise.cons ?_ (ih htail)
          intro b hb
          have hb2 := (putList_keys rest key v b.1).mp (List.mem_map_of_mem Prod.fst hb)
          rcases hb2 with h1 | h2
          · rw [h1]; exact hgt
          · obtain ⟨a, ha, hae⟩ := List.mem_map.mp h2
            rw [← hae]
            exact hhead a ha

/-- Sum of the value-list lengths of an in-order pair list. -/
def listSum (l : List (Int × List Value)) : Int :=
  (l.map (fun p => (p.2.length : Int))).sum

theorem sumVals_eq_listSum : ∀ (t : RBNode), sumVals t = listSum (inorder t) := by
  intro t
  induction t with
  | nil => rfl
  | node c l k vs r ihl ihr =>
      simp [sumVals, inorder, listSum, ihl, ihr]
      ring

theorem listSum_putList : ∀ (l : List (Int × List Value)) (key : Int) (v : Value),
    listSum (putList l key v) = listSum l + putDelta l key v := by
  intro l key v
  induction l with
  | nil => simp [putList, putDelta, listSum]
  | cons p rest ih =>
      obtain ⟨pk, pvs⟩ := p
      simp only [putList, putDelta]
      split
      · split
        · simp
        · simp [listSum]
          ring
      · split
        · simp [listSum]
          ring
        · simp only [listSum, List.map_cons, List.sum_cons] at ih ⊢
          rw [ih]
          ring

/-- The list-level `Put` keeps every value list non-empty. -/
theorem putList_nonempty : ∀ (l : List (Int × List Value)) (key : Int) (v : Value),
    (∀ p ∈ l, p.2 ≠ []) → ∀ p ∈ putList l key v, p.2 ≠ [] := by
  intro l key v
  induction l with
  | nil => intro _ p hp; simp [putList] at hp; simp [hp]
  | cons q rest ih =>
      intro hall p hp
      obtain ⟨qk, qvs⟩ := q
      simp only [putList] at hp
      split at hp
      · split at hp
        · exact hall p hp
        · rcases List.mem_cons.mp hp with h1 | h2
          · rw [h1]; simp
          · exact hall p (by simp [h2])
      · split at hp
        · rcases List.mem_cons.mp hp with h1 | h2
          · rw [h1]; simp
          · exact hall p (by simp at h2 ⊢; tauto)
        · rcases List.mem_cons.mp hp with h1 | h2
          · rw [h1]; exact hall (qk, qvs) (by simp)
          · exact ih (fun q hq => hall q (by simp [hq])) p h2

theorem valsNonempty_iff : ∀ (t : RBNode),
    valsNonempty t = true ↔ ∀ p ∈ inorder t, p.2 ≠ [] := by
  intro t
  induction t with
  | nil => simp [valsNonempty, inorder]
  | node c l k vs r ihl ihr =>
      simp only [valsNonempty, inorder, Bool.and_eq_true, Bool.not_eq_eq_eq_not,
        Bool.not_true, ihl, ihr]
      constructor
      · rintro ⟨⟨hvs, hl⟩, hr⟩ p hp
        rcases List.mem_append.mp hp with h1 | h2
        · exact hl p h1
        · rcases List.mem_cons.mp h2 with h3 | h4
          · rw [h3]
            simpa [List.isEmpty_iff] using hvs
          · exact hr p h4
      · intro hall
        refine ⟨⟨?_, fun p hp => hall p (by simp [hp])⟩,
          fun p hp => hall p (by simp [hp])⟩
        have := hall (k, vs) (by simp)
        simpa [List.isEmpty_iff] using this

/-! ## Lookup on ordered trees -/

theorem lookup_mem : ∀ (n : RBNode) (key : Int) {vs : List Value},
    lookup n key = some vs → (key, vs) ∈ inorder n := by
  intro n
  induction n with
  | nil => intro key vs h; simp [lookup] at h
  | node c l k vs0 r ihl ihr =>
      intro key vs h
      simp only [lookup] at h
      split at h
      · rename_i hcmp
        cases h
        have : key = k := comparator_eq_zero.mp hcmp
        subst this
        simp [inorder]
      · split at h
        · simp [inorder]
          exact Or.inl (ihl key h)
        · simp [inorder]
          exact Or.inr (Or.inr (ihr key h))

theorem mem_lookup : ∀ (n : RBNode) (key : Int) {vs : List Value},
    orderedB n = true → (key, vs) ∈ inorder n → lookup n key = some vs := by
  intro n
  induction n with
  | nil => intro key vs _ h; simp [inorder] at h
  | node c l k vs0 r ihl ihr =>
      intro key vs ho hm
      obtain ⟨h1, h2, h3, h4⟩ := orderedB_node ho
      simp only [inorder] at hm
      simp only [lookup]
      rcases List.mem_append.mp hm with hL | hR
      · have hkey : key < k := h1 (key, vs) hL
        rw [if_neg (by rw [comparator_eq_zero]; omega),
          if_pos (comparator_lt_zero.mpr hkey)]
        exact ihl key h3 hL
      · rcases List.mem_cons.mp hR with hE | hR2
        · obtain ⟨e1, e2⟩ := Prod.mk.injEq .. ▸ hE
          cases hE
          rw [if_pos (comparator_eq_zero.mpr rfl)]
        · have hkey : k < key := h2 (key, vs) hR2
          rw [if_neg (by rw [comparator_eq_zero]; omega),
            if_neg (by rw [comparator_lt_zero.not]; omega)]
          exact ihr key h4 hR2

theorem lookup_none_of_not_mem : ∀ (n : RBNode) (key : Int),
    key ∉ keysOf n → lookup n key = none := by
  intro n key hnm
  cases hl : lookup n key with
  | none => rfl
  | some vs =>
      exact absurd (List.mem_map_of_mem Prod.fst (lookup_mem n key hl)) hnm

/-! ## The master state invariant and its preservation -/

/-- Everything that holds of every reachable tree state: the red-black
balance invariant (root black), binary-search-tree order, `size` equal to
the total value count, and no empty value list. -/
def Inv (t : Tree) : Prop :=
  (∃ h, Balanced t.root Color.black h) ∧ orderedB t.root = true ∧
    t.size = sumVals t.root ∧ valsNonempty t.root = true

theorem inv_empty : Inv emptyTree := ⟨⟨0, Balanced.nil⟩, rfl, rfl, rfl⟩

/-- `Tree.put` seen through the list model. -/
theorem put_inorder {t : Tree} {key : Int} {v : Value}
    (ho : orderedB t.root = true) :
    inorder (t.put key v).root = putList (inorder t.root) key v ∧
    (t.put key v).size = t.size + putDelta (inorder t.root) key v := by
  obtain ⟨h1, h2⟩ := putAt_spec t.root Ctx.top key v ho
  simp only [Tree.put]
  rw [h1, h2]
  exact ⟨by simp [Ctx.before, Ctx.after], rfl⟩

theorem inv_put {t : Tree} {key : Int} {v : Value} (hi : Inv t) :
    Inv (t.put key v) := by
  obtain ⟨⟨h0, hb⟩, ho, hsz, hne⟩ := hi
  obtain ⟨hio, hsz'⟩ := put_inorder ho
  refine ⟨?_, ?_, ?_, ?_⟩
  · simpa only [Tree.put] using putAt_bal t.root Ctx.top key v hb CtxBal.top
  · rw [orderedB_iff, hio]
    exact putList_sorted _ key v ((orderedB_iff t.root).mp ho)
  · rw [hsz', sumVals_eq_listSum, hio, listSum_putList, hsz, sumVals_eq_listSum]
  · rw [valsNonempty_iff, hio]
    exact putList_nonempty _ key v ((valsNonempty_iff t.root).mp hne)

theorem listSum_split {X Y : List (Int × List Value)} {k : Int} {vs : List Value} :
    listSum (X ++ (k, vs) :: Y) = listSum X + vs.length + listSum Y := by
  simp [listSum]
  ring

theorem keySorted_drop_mid {X Y : List (Int × List Value)} {k : Int} {vs : List Value}
    (hs : keySorted (X ++ (k, vs) :: Y)) : keySorted (X ++ Y) :=
  List.Pairwise.sublist
    (List.Sublist.append_left (List.sublist_cons_self (k, vs) Y) X) hs

theorem inv_remove {t : Tree} {key : Int} (hi : Inv t) : Inv (t.remove key) := by
  obtain ⟨⟨h0, hb⟩, ho, hsz, hne⟩ := hi
  obtain ⟨hbal, hdisj⟩ := remove_spec hb
  rcases hdisj with ⟨_, heq⟩ | ⟨vs, X, Y, hlk, hioX, hio, hsz'⟩
  · rw [heq]; exact ⟨⟨h0, hb⟩, ho, hsz, hne⟩
  · refine ⟨hbal, ?_, ?_, ?_⟩
    · rw [orderedB_iff, hio]
      exact keySorted_drop_mid (hioX ▸ (orderedB_iff t.root).mp ho)
    · rw [hsz', hsz, sumVals_eq_listSum, sumVals_eq_listSum, hio, hioX, listSum_split]
      simp [listSum]
      ring
    · rw [valsNonempty_iff, hio]
      intro p hp
      have hne2 := (valsNonempty_iff t.root).mp hne
      refine hne2 p ?_
      rw [hioX]
      rcases List.mem_append.mp hp with h1 | h2
      · exact List.mem_append.mpr (Or.inl h1)
      · exact List.mem_append.mpr (Or.inr (by simp [h2]))

theorem inv_putG {t : Tree} {key : Option Int} {v : Option Value} (hi : Inv t) :
    Inv (t.putG key v) := by
  cases key with
  | none => exact hi
  | some k =>
      cases v with
      | none => exact hi
      | some v0 => exact inv_put hi

theorem inv_removeG {t : Tree} {key : Option Int} (hi : Inv t) :
    Inv (t.removeG key) := by
  cases key with
  | none => exact hi
  | some k => exact inv_remove hi

theorem inv_clear {t : Tree} : Inv t.clear := ⟨⟨0, Balanced.nil⟩, rfl, rfl, rfl⟩

theorem inv_popMin {t : Tree} (hi : Inv t) : Inv t.popMin.2 := by
  simp only [Tree.popMin]
  cases t.minPair with
  | none => exact hi
  | some p => exact inv_remove hi

theorem inv_popMax {t : Tree} (hi : Inv t) : Inv t.popMax.2 := by
  simp only [Tree.popMax]
  cases t.maxPair with
  | none => exact hi
  | some p => exact inv_remove hi

theorem inv_applyOp {t : Tree} (hi : Inv t) : ∀ (op : Op), Inv (t.applyOp op)
  | Op.put k v => inv_putG hi
  | Op.remove k => inv_removeG hi
  | Op.clear => @inv_clear t
  | Op.popMin => inv_popMin hi
  | Op.popMax => inv_popMax hi

theorem inv_foldl : ∀ (ops : List Op) (t : Tree), Inv t →
    Inv (ops.foldl Tree.applyOp t)
  | [], t, hi => hi
  | op :: ops, t, hi => inv_foldl ops (t.applyOp op) (inv_applyOp hi op)

/-- Every tree reachable by public mutating calls satisfies the master
invariant. -/
theorem inv_run (ops : List Op) : Inv (run ops) := inv_foldl ops emptyTree inv_empty

/-! ## Minimum / maximum and the pop loops -/

theorem leftmostNode_spec : ∀ (t : RBNode), t ≠ RBNode.nil →
    ∃ c k vs r rest, leftmostNode t = RBNode.node c RBNode.nil k vs r ∧
      inorder t = (k, vs) :: rest := by
  intro t
  induction t with
  | nil => intro h; exact absurd rfl h
  | node c l k vs r ihl ihr =>
      intro _
      cases l with
      | nil =>
          exact ⟨c, k, vs, r, inorder r, by simp [leftmostNode], by simp [inorder]⟩
      | node lc ll lk lvs lr =>
          obtain ⟨c2, k2, vs2, r2, rest2, hlm, hio⟩ := ihl (by simp)
          refine ⟨c2, k2, vs2, r2, rest2 ++ (k, vs) :: inorder r, ?_, ?_⟩
          · simpa [leftmostNode] using hlm
          · rw [show inorder (RBNode.node c (RBNode.node lc ll lk lvs lr) k vs r)
                = inorder (RBNode.node lc ll lk lvs lr) ++ (k, vs) :: inorder r from rfl,
              hio]
            simp

theorem rightmostNode_spec : ∀ (t : RBNode), t ≠ RBNode.nil →
    ∃ c l k vs rest, rightmostNode t = RBNode.node c l k vs RBNode.nil ∧
      inorder t = rest ++ [(k, vs)] := by
  intro t
  induction t with
  | nil => intro h; exact absurd rfl h
  | node c l k vs r ihl ihr =>
      intro _
      cases r with
      | nil =>
          exact ⟨c, l, k, vs, inorder l, by simp [rightmostNode], by simp [inorder]⟩
      | node rc rl rk rvs rr =>
          obtain ⟨c2, l2, k2, vs2, rest2, hrm, hio⟩ := ihr (by simp)
          refine ⟨c2, l2, k2, vs2, inorder l ++ (k, vs) :: rest2, ?_, ?_⟩
          · simpa [rightmostNode] using hrm
          · rw [show inorder (RBNode.node c l k vs (RBNode.node rc rl rk rvs rr))
                = inorder l ++ (k, vs) :: inorder (RBNode.node rc rl rk rvs rr) from rfl,
              hio]
            simp

theorem keySorted_unique : ∀ {l : List (Int × List Value)} {k : Int} {a b : List Value},
    keySorted l → (k, a) ∈ l → (k, b) ∈ l → a = b := by
  intro l
  induction l with
  | nil => intro k a b _ h1; simp at h1
  | cons p rest ih =>
      intro k a b hs h1 h2
      simp only [keySorted, List.pairwise_cons] at hs
      obtain ⟨hhead, htail⟩ := hs
      rcases List.mem_cons.mp h1 with e1 | m1 <;> rcases List.mem_cons.mp h2 with e2 | m2
      · rw [← e1] at e2; exact (Prod.mk.injEq .. ▸ e2).2.symm
      · exact absurd (hhead (k, b) m2) (by rw [← e1]; simp)
      · exact absurd (hhead (k, a) m1) (by rw [← e2]; simp)
      · exact ih htail m1 m2

theorem keySorted_eq_head : ∀ {X Y rest : List (Int × List Value)}
    {k : Int} {vs vs2 : List Value},
    keySorted (X ++ (k, vs) :: Y) → X ++ (k, vs) :: Y = (k, vs2) :: rest →
    X = [] ∧ Y = rest ∧ vs = vs2 := by
  intro X Y rest k vs vs2 hs he
  cases X with
  | nil =>
      simp only [List.nil_append] at he
      obtain ⟨h1, h2⟩ := List.cons.inj he
      exact ⟨rfl, h2, (Prod.mk.injEq .. ▸ h1).2⟩
  | cons p X' =>
      simp only [List.cons_append] at he
      obtain ⟨h1, _⟩ := List.cons.inj he
      simp only [keySorted, List.cons_append, List.pairwise_cons] at hs
      have := hs.1 (k, vs) (by simp)
      rw [h1] at this
      simp at this

theorem keySorted_eq_last : ∀ {X Y rest : List (Int × List Value)}
    {k : Int} {vs vs2 : List Value},
    keySorted (X ++ (k, vs) :: Y) → X ++ (k, vs) :: Y = rest ++ [(k, vs2)] →
    Y = [] ∧ X = rest ∧ vs = vs2 := by
  intro X Y rest k vs vs2 hs he
  cases Y with
  | nil =>
      have hlen : X.length = rest.length := by
        have := congrArg List.length he
        simp at this
        omega
      obtain ⟨h1, h2⟩ := List.append_inj he hlen
      obtain ⟨h3, _⟩ := List.cons.inj h2
      exact ⟨rfl, h1, (Prod.mk.injEq .. ▸ h3).2⟩
  | cons q Y' =>
      exfalso
      have hg : (q :: Y').getLast? = some (k, vs2) := by
        have hg2 := congrArg List.getLast? he
        rw [List.getLast?_append_cons, List.getLast?_cons_cons,
          List.getLast?_concat] at hg2
        exact hg2
      have hq : (k, vs2) ∈ q :: Y' := by
        obtain ⟨hne', heq⟩ := List.mem_getLast?_eq_getLast (Option.mem_def.mpr hg)
        rw [heq]
        exact List.getLast_mem hne'
      have hs2 : ∀ b ∈ q :: Y', k < b.1 := by
        have := (List.pairwise_append.mp hs).2.1
        rw [List.pairwise_cons] at this
        exact this.1
      have := hs2 (k, vs2) hq
      simp at this

/-- One `PopMin` step on an invariant-satisfying non-empty tree: it
returns the head entry of the in-order pairs, and the rest of the entries
survive in a tree that again satisfies the invariant. -/
theorem popMin_step {t : Tree} (hi : Inv t) (hne : t.root ≠ RBNode.nil) :
    ∃ k vs rest, inorder t.root = (k, vs) :: rest ∧
      t.popMin.1 = some (k, vs) ∧ inorder t.popMin.2.root = rest ∧
      Inv t.popMin.2 := by
  obtain ⟨⟨h0, hb⟩, ho, hsz, hnev⟩ := hi
  obtain ⟨c2, k, vs, r2, rest, hlm, hio⟩ := leftmostNode_spec t.root hne
  have hmp : t.minPair = some (k, vs) := by
    simp only [Tree.minPair, hlm]
  have hpop1 : t.popMin.1 = some (k, vs) := by
    simp only [Tree.popMin, hmp]
  have hpop2 : t.popMin.2 = t.remove k := by
    simp only [Tree.popMin, hmp]
  have hlk : lookup t.root k = some vs :=
    mem_lookup t.root k ho (by rw [hio]; simp)
  obtain ⟨hbal, hdisj⟩ := @remove_spec t k h0 hb
  rcases hdisj with ⟨hlk2, _⟩ | ⟨vs2, X, Y, hlk2, hioX, hio2, hsz2⟩
  · rw [hlk] at hlk2; cases hlk2
  · rw [hlk] at hlk2
    have hvs2 : vs = vs2 := by cases hlk2; rfl
    subst hvs2
    obtain ⟨hX, hY, _⟩ := keySorted_eq_head
      (hioX ▸ (orderedB_iff t.root).mp ho) (hioX.symm.trans hio)
    subst hX
    refine ⟨k, vs, rest, hio, hpop1, ?_, ?_⟩
    · rw [hpop2, hio2, hY]; rfl
    · rw [hpop2]
      exact inv_remove ⟨⟨h0, hb⟩, ho, hsz, hnev⟩

/-- One `PopMax` step, mirror of `popMin_step`. -/
theorem popMax_step {t : Tree} (hi : Inv t) (hne : t.root ≠ RBNode.nil) :
    ∃ k vs rest, inorder t.root = rest ++ [(k, vs)] ∧
      t.popMax.1 = some (k, vs) ∧ inorder t.popMax.2.root = rest ∧
      Inv t.popMax.2 := by
  obtain ⟨⟨h0, hb⟩, ho, hsz, hnev⟩ := hi
  obtain ⟨c2, l2, k, vs, rest, hrm, hio⟩ := rightmostNode_spec t.root hne
  have hmp : t.maxPair = some (k, vs) := by
    simp only [Tree.maxPair, hrm]
  have hpop1 : t.popMax.1 = some (k, vs) := by
    simp only [Tree.popMax, hmp]
  have hpop2 : t.popMax.2 = t.remove k := by
    simp only [Tree.popMax, hmp]
  have hlk : lookup t.root k = some vs :=
    mem_lookup t.root k ho (by rw [hio]; simp)
  obtain ⟨hbal, hdisj⟩ := @remove_spec t k h0 hb
  rcases hdisj with ⟨hlk2, _⟩ | ⟨vs2, X, Y, hlk2, hioX, hio2, hsz2⟩
  · rw [hlk] at hlk2; cases hlk2
  · rw [hlk] at hlk2
    have hvs2 : vs = vs2 := by cases hlk2; rfl
    subst hvs2
    obtain ⟨hY, hX, _⟩ := keySorted_eq_last
      (hioX ▸ (orderedB_iff t.root).mp ho) (hioX.symm.trans hio)
    subst hY
    refine ⟨k, vs, rest, hio, hpop1, ?_, ?_⟩
    · rw [hpop2, hio2, hX]; simp
    · rw [hpop2]
      exact inv_remove ⟨⟨h0, hb⟩, ho, hsz, hnev⟩

/-! ## Floor and ceiling -/

theorem floorLoop_none : ∀ (n : RBNode) (key : Int) (acc : Option (List Value)),
    (∀ p ∈ inorder n, ¬ p.1 ≤ key) → floorLoop n key acc = acc := by
  intro n
  induction n with
  | nil => intro key acc _; rfl
  | node c l k vs r ihl ihr =>
      intro key acc hall
      have hk : ¬ (k : Int) ≤ key := hall (k, vs) (by simp [inorder])
      simp only [floorLoop]
      rw [if_neg (by rw [comparator_eq_zero]; omega),
        if_pos (comparator_lt_zero.mpr (by omega))]
      exact ihl key acc (fun p hp => hall p (by simp [inorder]; exact Or.inl hp))

theorem floorLoop_found : ∀ (n : RBNode) (key key' : Int) (vs : List Value)
    (acc : Option (List Value)),
    orderedB n = true → (key', vs) ∈ inorder n → key' ≤ key →
    (∀ p ∈ inorder n, p.1 ≤ key → p.1 ≤ key') →
    floorLoop n key acc = some vs := by
  intro n
  induction n with
  | nil => intro key key' vs acc _ hm; simp [inorder] at hm
  | node c l k vs0 r ihl ihr =>
      intro key key' vs acc ho hm hle hmax
      obtain ⟨h1, h2, h3, h4⟩ := orderedB_node ho
      have hsorted := (orderedB_iff _).mp ho
      simp only [floorLoop]
      rcases lt_trichotomy key k with hlt | heq | hgt
      · -- search moves left; the target entry is in the left subtree
        rw [if_neg (by rw [comparator_eq_zero]; omega),
          if_pos (comparator_lt_zero.mpr hlt)]
        have hmem : (key', vs) ∈ inorder l := by
          simp only [inorder, List.mem_append, List.mem_cons] at hm
          rcases hm with hL | hE | hR
          · exact hL
          · exfalso
            have : key' = k := (Prod.mk.injEq .. ▸ hE).1
            omega
          · exfalso
            have := h2 (key', vs) hR
            omega
        exact ihl key key' vs acc h3 hmem hle
          (fun p hp hpk => hmax p (by simp [inorder]; exact Or.inl hp) hpk)
      · -- exact match returns immediately
        subst heq
        rw [if_pos (comparator_eq_zero.mpr rfl)]
        have hk' : key' = key := by
          have hup := hmax (key, vs0) (by simp [inorder]) le_rfl
          omega
        subst hk'
        have hvs0 : vs = vs0 := keySorted_unique hsorted hm (by
          simp [inorder])
        rw [hvs0]
      · -- search moves right, recording this node as candidate
        rw [if_neg (by rw [comparator_eq_zero]; omega),
          if_neg (by rw [comparator_lt_zero.not]; omega)]
        have hk'k : k ≤ key' := hmax (k, vs0) (by simp [inorder]) (by omega)
        rcases eq_or_lt_of_le hk'k with heqk | hltk
        · -- the node itself is the floor: nothing to the right qualifies
          have hvs : vs = vs0 := by
            refine keySorted_unique hsorted hm ?_
            rw [heqk]
            simp [inorder]
          rw [floorLoop_none r key (some vs0) ?_, hvs]
          intro p hp hple
          have := hmax p (by simp [inorder]; exact Or.inr (Or.inr hp)) hple
          have := h2 p hp
          omega
        · -- the floor lies in the right subtree
          have hmem : (key', vs) ∈ inorder r := by
            simp only [inorder, List.mem_append, List.mem_cons] at hm
            rcases hm with hL | hE | hR
            · exfalso
              have := h1 (key', vs) hL
              omega
            · exfalso
              have : key' = k := (Prod.mk.injEq .. ▸ hE).1
              omega
            · exact hR
          exact ihr key key' vs (some vs0) h4 hmem hle
            (fun p hp hpk => hmax p (by simp [inorder]; exact Or.inr (Or.inr hp)) hpk)

theorem ceilingLoop_none : ∀ (n : RBNode) (key : Int) (acc : Option (List Value)),
    (∀ p ∈ inorder n, ¬ key ≤ p.1) → ceilingLoop n key acc = acc := by
  intro n
  induction n with
  | nil => intro key acc _; rfl
  | node c l k vs r ihl ihr =>
      intro key acc hall
      have hk : ¬ key ≤ (k : Int) := hall (k, vs) (by simp [inorder])
      simp only [ceilingLoop]
      rw [if_neg (by rw [comparator_eq_zero]; omega),
        if_neg (by rw [comparator_lt_zero.not]; omega)]
      exact ihr key acc (fun p hp => hall p (by simp [inorder]; exact Or.inr (Or.inr hp)))

theorem ceilingLoop_found : ∀ (n : RBNode) (key key' : Int) (vs : List Value)
    (acc : Option (List Value)),
    orderedB n = true → (key', vs) ∈ inorder n → key ≤ key' →
    (∀ p ∈ inorder n, key ≤ p.1 → key' ≤ p.1) →
    ceilingLoop n key acc = some vs := by
  intro n
  induction n with
  | nil => intro key key' vs acc _ hm; simp [inorder] at hm
  | node c l k vs0 r ihl ihr =>
      intro key key' vs acc ho hm hle hmin
      obtain ⟨h1, h2, h3, h4⟩ := orderedB_node ho
      have hsorted := (orderedB_iff _).mp ho
      simp only [ceilingLoop]
      rcases lt_trichotomy key k with hlt | heq | hgt
      · -- search moves left, recording this node as candidate
        rw [if_neg (by rw [comparator_eq_zero]; omega),
          if_pos (comparator_lt_zero.mpr hlt)]
        have hk'k : key' ≤ k := hmin (k, vs0) (by simp [inorder]) (by omega)
        rcases eq_or_lt_of_le hk'k with heqk | hltk
        · have hvs : vs = vs0 := by
            refine keySorted_unique hsorted hm ?_
            rw [heqk]
            simp [inorder]
          rw [ceilingLoop_none l key (some vs0) ?_, hvs]
          intro p hp hple
          have := hmin p (by simp [inorder]; exact Or.inl hp) hple
          have := h1 p hp
          omega
        · have hmem : (key', vs) ∈ inorder l := by
            simp only [inorder, List.mem_append, List.mem_cons] at hm
            rcases hm with hL | hE | hR
            · exact hL
            · exfalso
              have : key' = k := (Prod.mk.injEq .. ▸ hE).1
              omega
            · exfalso
              have := h2 (key', vs) hR
              omega
          exact ihl key key' vs (some vs0) h3 hmem hle
            (fun p hp hpk => hmin p (by simp [inorder]; exact Or.inl hp) hpk)
      · subst heq
        rw [if_pos (comparator_eq_zero.mpr rfl)]
        have hk' : key' = key := by
          have hup := hmin (key, vs0) (by simp [inorder]) le_rfl
          omega
        subst hk'
        have hvs0 : vs = vs0 := keySorted_unique hsorted hm (by
          simp [inorder])
        rw [hvs0]
      · rw [if_neg (by rw [comparator_eq_zero]; omega),
          if_neg (by rw [comparator_lt_zero.not]; omega)]
        have hmem : (key', vs) ∈ inorder r := by
          simp only [inorder, List.mem_append, List.mem_cons] at hm
          rcases hm with hL | hE | hR
          · exfalso
            have := h1 (key', vs) hL
            omega
          · exfalso
            have : key' = k := (Prod.mk.injEq .. ▸ hE).1
            omega
          · exact hR
        exact ihr key key' vs acc h4 hmem hle
          (fun p hp hpk => hmin p (by simp [inorder]; exact Or.inr (Or.inr hp)) hpk)

/-! ## Repeated popping -/

theorem inorder_eq_nil {t : RBNode} : inorder t = [] ↔ t = RBNode.nil := by
  cases t <;> simp [inorder]

theorem sumVals_nonneg : ∀ {t : RBNode}, valsNonempty t = true → 0 ≤ sumVals t := by
  intro t
  induction t with
  | nil => intro _; simp [sumVals]
  | node c l k vs r ihl ihr =>
      intro hne
      simp only [valsNonempty, Bool.and_eq_true] at hne
      have h1 := ihl hne.1.2
      have h2 := ihr hne.2
      simp only [sumVals]
      have : (0 : Int) ≤ vs.length := by positivity
      omega

theorem sumVals_pos : ∀ {t : RBNode}, valsNonempty t = true → t ≠ RBNode.nil →
    0 < sumVals t := by
  intro t
  cases t with
  | nil => intro _ h; exact absurd rfl h
  | node c l k vs r =>
      intro hne _
      simp only [valsNonempty, Bool.and_eq_true, Bool.not_eq_eq_eq_not,
        Bool.not_true] at hne
      have h1 := sumVals_nonneg hne.1.2
      have h2 := sumVals_nonneg hne.2
      have h3 : vs ≠ [] := by simpa [List.isEmpty_iff] using hne.1.1
      have h4 : 1 ≤ (vs.length : Int) := by
        have := List.length_pos.mpr h3
        omega
      simp only [sumVals]
      omega

/-- The keys returned by `n` successive `PopMin` calls. -/
def popMinKeys : Nat → Tree → List Int
  | 0, _ => []
  | n + 1, t =>
      match t.popMin with
      | (none, _) => []
      | (some p, t') => p.1 :: popMinKeys n t'

/-- The tree after `n` successive `PopMin` calls. -/
def popMinIter : Nat → Tree → Tree
  | 0, t => t
  | n + 1, t => popMinIter n t.popMin.2

/-- The keys returned by `n` successive `PopMax` calls. -/
def popMaxKeys : Nat → Tree → List Int
  | 0, _ => []
  | n + 1, t =>
      match t.popMax with
      | (none, _) => []
      | (some p, t') => p.1 :: popMaxKeys n t'

/-- The tree after `n` successive `PopMax` calls. -/
def popMaxIter : Nat → Tree → Tree
  | 0, t => t
  | n + 1, t => popMaxIter n t.popMax.2

theorem popMin_run : ∀ (N : Nat) (t : Tree), Inv t → N = (inorder t.root).length →
    popMinKeys N t = keysOf t.root ∧ (popMinIter N t).root = RBNode.nil ∧
    (∀ m, m < N → (popMinIter m t).root ≠ RBNode.nil) := by
  intro N
  induction N with
  | zero =>
      intro t hi hN
      have h0 : t.root = RBNode.nil :=
        inorder_eq_nil.mp (List.length_eq_zero.mp hN.symm)
      refine ⟨?_, h0, by omega⟩
      rw [popMinKeys, keysOf, h0]
      rfl
  | succ N ih =>
      intro t hi hN
      have hne : t.root ≠ RBNode.nil := by
        intro h0
        rw [h0] at hN
        simp [inorder] at hN
      obtain ⟨k, vs, rest, hio, hpop1, hio2, hinv2⟩ := popMin_step hi hne
      cases hpm : t.popMin with
      | mk o t' =>
          rw [hpm] at hpop1 hio2 hinv2
          simp only at hpop1 hio2 hinv2
          subst hpop1
          have hlen : N = (inorder t'.root).length := by
            rw [hio2]
            have := congrArg List.length hio
            simp at this
            omega
          obtain ⟨ihk, ihe, ihne⟩ := ih t' hinv2 hlen
          refine ⟨?_, ?_, ?_⟩
          · rw [popMinKeys, hpm]
            show k :: popMinKeys N t' = keysOf t.root
            rw [ihk]
            simp only [keysOf, hio, hio2, List.map_cons]
          · rw [popMinIter, hpm]
            exact ihe
          · intro m hm
            cases m with
            | zero => exact hne
            | succ m' =>
                rw [popMinIter, hpm]
                exact ihne m' (by omega)

theorem popMax_run : ∀ (N : Nat) (t : Tree), Inv t → N = (inorder t.root).length →
    popMaxKeys N t = (keysOf t.root).reverse ∧ (popMaxIter N t).root = RBNode.nil ∧
    (∀ m, m < N → (popMaxIter m t).root ≠ RBNode.nil) := by
  intro N
  induction N with
  | zero =>
      intro t hi hN
      have h0 : t.root = RBNode.nil :=
        inorder_eq_nil.mp (List.length_eq_zero.mp hN.symm)
      refine ⟨?_, h0, by omega⟩
      rw [popMaxKeys, keysOf, h0]
      rfl
  | succ N ih =>
      intro t hi hN
      have hne : t.root ≠ RBNode.nil := by
        intro h0
        rw [h0] at hN
        simp [inorder] at hN
      obtain ⟨k, vs, rest, hio, hpop1, hio2, hinv2⟩ := popMax_step hi hne
      cases hpm : t.popMax with
      | mk o t' =>
          rw [hpm] at hpop1 hio2 hinv2
          simp only at hpop1 hio2 hinv2
          subst hpop1
          have hlen : N = (inorder t'.root).length := by
            rw [hio2]
            have := congrArg List.length hio
            simp at this
            omega
          obtain ⟨ihk, ihe, ihne⟩ := ih t' hinv2 hlen
          refine ⟨?_, ?_, ?_⟩
          · rw [popMaxKeys, hpm]
            show k :: popMaxKeys N t' = (keysOf t.root).reverse
            rw [ihk]
            simp only [keysOf, hio, hio2]
            simp
          · rw [popMaxIter, hpm]
            exact ihe
          · intro m hm
            cases m with
            | zero => exact hne
            | succ m' =>
                rw [popMaxIter, hpm]
                exact ihne m' (by omega)

theorem inv_popMinIter : ∀ (n : Nat) (t : Tree), Inv t → Inv (popMinIter n t)
  | 0, t, hi => hi
  | n + 1, t, hi => inv_popMinIter n t.popMin.2 (inv_popMin hi)

theorem inv_popMaxIter : ∀ (n : Nat) (t : Tree), Inv t → Inv (popMaxIter n t)
  | 0, t, hi => hi
  | n + 1, t, hi => inv_popMaxIter n t.popMax.2 (inv_popMax hi)

theorem empty_iff_root_nil {t : Tree} (hi : Inv t) :
    t.empty = true ↔ t.root = RBNode.nil := by
  obtain ⟨_, _, hsz, hne⟩ := hi
  simp only [Tree.empty, decide_eq_true_eq]
  constructor
  · intro h0
    by_contra hroot
    have := sumVals_pos hne hroot
    omega
  · intro h0
    rw [hsz, h0]
    rfl

/-- A sequence of engine-level `Put` calls on a fresh tree. -/
def runPuts (ops : List (Int × Value)) : Tree :=
  ops.foldl (fun t p => t.put p.1 p.2) emptyTree

theorem runPuts_aux : ∀ (ops : List (Int × Value)) (t : Tree), Inv t →
    Inv (ops.foldl (fun t p => t.put p.1 p.2) t) ∧
    (∀ k, k ∈ keysOf (ops.foldl (fun t p => t.put p.1 p.2) t).root ↔
      k ∈ ops.map Prod.fst ∨ k ∈ keysOf t.root) := by
  intro ops
  induction ops with
  | nil => intro t hi; exact ⟨hi, by simp⟩
  | cons p ops ih =>
      intro t hi
      obtain ⟨hi1, hkeys⟩ := ih (t.put p.1 p.2) (inv_put hi)
      refine ⟨hi1, fun k => ?_⟩
      simp only [List.foldl_cons]
      rw [hkeys k]
      have hko : k ∈ keysOf (t.put p.1 p.2).root ↔ k = p.1 ∨ k ∈ keysOf t.root := by
        obtain ⟨hio, _⟩ := put_inorder hi.2.1
        rw [keysOf, hio]
        exact putList_keys (inorder t.root) p.1 p.2 k
      rw [hko]
      simp only [List.map_cons, List.mem_cons]
      tauto

/-! ## The claims -/

/-- C1: after every public mutating operation (in particular after every
`Put` and every `Remove`) returns, the red-black coloring invariants hold
on the whole tree: the root is black (the color of an empty tree's nil
root also reads black), no red node has a red child, and every path from
any node to a descendant nil leaf passes through the same number of black
nodes (the black-height checker succeeds). -/
theorem claim_C1_rb_invariants (ops : List Op) :
    nodeColor (run ops).root = Color.black ∧
    noRedRed (run ops).root = true ∧
    (bhAll (run ops).root).isSome = true := by
  obtain ⟨⟨h, hb⟩, _, _, _⟩ := inv_run ops
  refine ⟨hb.nodeColor_eq, hb.noRedRed, ?_⟩
  rw [hb.bhAll]
  rfl

/-- C2: for every sequence of `Put` operations, the in-order traversal
(the iterator's ascending walk) of the resulting tree lists exactly the
distinct inserted keys, each once, in strictly ascending comparator order,
and every node dominates its left subtree's keys and is below its right
subtree's keys (`orderedB`). -/
theorem claim_C2_bst_order (ops : List (Int × Value)) :
    List.Pairwise (· < ·) (keysOf (runPuts ops).root) ∧
    (∀ k, k ∈ keysOf (runPuts ops).root ↔ k ∈ ops.map Prod.fst) ∧
    orderedB (runPuts ops).root = true := by
  obtain ⟨hi, hkeys⟩ := runPuts_aux ops emptyTree inv_empty
  have ho : orderedB (runPuts ops).root = true := hi.2.1
  refine ⟨?_, fun k => ?_, ho⟩
  · have := (orderedB_iff _).mp ho
    rw [keysOf]
    exact List.pairwise_map.mpr this
  · rw [show (runPuts ops) = ops.foldl (fun t p => t.put p.1 p.2) emptyTree from rfl,
      hkeys k]
    simp [keysOf, emptyTree, inorder]

/-- C3: `Put` on a tree already containing the key: if some value of that
key's list has the same identity string, the value list and `size` are
unchanged; otherwise the value is appended at the end of the list and
`size` grows by exactly 1. -/
theorem claim_C3_dedup {t : Tree} {key : Int} {v : Value} {vs : List Value}
    (hi : Inv t) (hlk : lookup t.root key = some vs) :
    (vs.any (fun w => w.id = v.id) = true →
      lookup (t.put key v).root key = some vs ∧ (t.put key v).size = t.size) ∧
    (vs.any (fun w => w.id = v.id) = false →
      lookup (t.put key v).root key = some (vs ++ [v]) ∧
      (t.put key v).size = t.size + 1) := by
  obtain ⟨⟨h0, hb⟩, ho, hsz, hne⟩ := hi
  obtain ⟨X, Y, hXY⟩ := List.append_of_mem (lookup_mem t.root key hlk)
  have hsorted : keySorted (X ++ (key, vs) :: Y) :=
    hXY ▸ (orderedB_iff t.root).mp ho
  have hXlt : ∀ a ∈ X, a.1 < key := by
    intro a ha
    exact (List.pairwise_append.mp hsorted).2.2 a ha (key, vs) (by simp)
  obtain ⟨hio, hsz'⟩ := @put_inorder t key v ho
  have hor : orderedB (t.put key v).root = true :=
    (inv_put ⟨⟨h0, hb⟩, ho, hsz, hne⟩).2.1
  rw [hXY] at hio
  rw [putList_append_eq X Y hXlt] at hio
  rw [hXY] at hsz'
  rw [putDelta_append_eq X Y hXlt] at hsz'
  constructor
  · intro hdup
    rw [hdup] at hio hsz'
    simp only [if_true] at hio hsz'
    refine ⟨mem_lookup _ key hor (by rw [hio]; simp), by rw [hsz']; ring⟩
  · intro hdup
    rw [hdup] at hio hsz'
    simp only [Bool.false_eq_true, if_false] at hio hsz'
    exact ⟨mem_lookup _ key hor (by rw [hio]; simp), hsz'⟩

/-- C3 witness: a one-node tree at key 1 with value identity "A"; putting
identity "A" again changes nothing, putting identity "B" appends. -/
theorem claim_C3_dedup_witness :
    Inv ⟨RBNode.node Color.black RBNode.nil 1 [⟨"A", "A"⟩] RBNode.nil, 1⟩ ∧
    lookup (⟨RBNode.node Color.black RBNode.nil 1 [⟨"A", "A"⟩] RBNode.nil, 1⟩ :
      Tree).root 1 = some [⟨"A", "A"⟩] ∧
    (([⟨"A", "A"⟩] : List Value).any
        (fun w => w.id = (⟨"B", "B"⟩ : Value).id) = true →
      lookup ((⟨RBNode.node Color.black RBNode.nil 1 [⟨"A", "A"⟩] RBNode.nil, 1⟩ :
          Tree).put 1 ⟨"B", "B"⟩).root 1 = some [⟨"A", "A"⟩] ∧
      ((⟨RBNode.node Color.black RBNode.nil 1 [⟨"A", "A"⟩] RBNode.nil, 1⟩ :
          Tree).put 1 ⟨"B", "B"⟩).size = 1) ∧
    (([⟨"A", "A"⟩] : List Value).any
        (fun w => w.id = (⟨"B", "B"⟩ : Value).id) = false →
      lookup ((⟨RBNode.node Color.black RBNode.nil 1 [⟨"A", "A"⟩] RBNode.nil, 1⟩ :
          Tree).put 1 ⟨"B", "B"⟩).root 1 = some [⟨"A", "A"⟩, ⟨"B", "B"⟩] ∧
      ((⟨RBNode.node Color.black RBNode.nil 1 [⟨"A", "A"⟩] RBNode.nil, 1⟩ :
          Tree).put 1 ⟨"B", "B"⟩).size = 1 + 1) :=
  have hinv : Inv ⟨RBNode.node Color.black RBNode.nil 1 [⟨"A", "A"⟩] RBNode.nil, 1⟩ :=
    ⟨⟨1, Balanced.black Balanced.nil Balanced.nil⟩, by decide, by decide, by decide⟩
  have hlk : lookup (⟨RBNode.node Color.black RBNode.nil 1 [⟨"A", "A"⟩] RBNode.nil, 1⟩ :
      Tree).root 1 = some [⟨"A", "A"⟩] := rfl
  ⟨hinv, hlk, (claim_C3_dedup hinv hlk).1, (claim_C3_dedup hinv hlk).2⟩

/-- C4: removing a present key deletes it with all its values (`Get`
reports not-found afterwards and `size` drops by the value count);
removing an absent key changes nothing. -/
theorem claim_C4_remove {t : Tree} {key : Int} (hi : Inv t) :
    (∀ vs, lookup t.root key = some vs →
      (t.remove key).get (some key) = none ∧
      (t.remove key).size = t.size - vs.length) ∧
    (lookup t.root key = none → t.remove key = t) := by
  obtain ⟨⟨h0, hb⟩, ho, hsz, hne⟩ := hi
  obtain ⟨hbal, hdisj⟩ := @remove_spec t key h0 hb
  constructor
  · intro vs hlk
    rcases hdisj with ⟨hnone, _⟩ | ⟨vs2, X, Y, hlk2, hioX, hio, hsz'⟩
    · rw [hlk] at hnone; cases hnone
    · rw [hlk] at hlk2
      have hvs : vs = vs2 := by cases hlk2; rfl
      subst hvs
      have hsorted : keySorted (X ++ (key, vs) :: Y) :=
        hioX ▸ (orderedB_iff t.root).mp ho
      have hnotmem : key ∉ keysOf (t.remove key).root := by
        rw [keysOf, hio]
        intro hmem
        obtain ⟨a, ha, hae⟩ := List.mem_map.mp hmem
        rcases List.mem_append.mp ha with hX | hY
        · have := (List.pairwise_append.mp hsorted).2.2 a hX (key, vs) (by simp)
          omega
        · have h5 := (List.pairwise_append.mp hsorted).2.1
          rw [List.pairwise_cons] at h5
          have := h5.1 a hY
          omega
      refine ⟨?_, hsz'⟩
      simp only [Tree.get]
      exact lookup_none_of_not_mem _ key hnotmem
  · intro hlk
    rcases hdisj with ⟨_, heq⟩ | ⟨vs2, X, Y, hlk2, _, _, _⟩
    · exact heq
    · rw [hlk] at hlk2; cases hlk2

/-- C4 witness: the one-node tree at key 1; removing key 1 empties it,
removing the absent key 2 is a no-op. -/
theorem claim_C4_remove_witness :
    Inv ⟨RBNode.node Color.black RBNode.nil 1 [⟨"A", "A"⟩] RBNode.nil, 1⟩ ∧
    ((∀ vs, lookup (⟨RBNode.node Color.black RBNode.nil 1 [⟨"A", "A"⟩] RBNode.nil, 1⟩ :
        Tree).root 1 = some vs →
      ((⟨RBNode.node Color.black RBNode.nil 1 [⟨"A", "A"⟩] RBNode.nil, 1⟩ :
        Tree).remove 1).get (some 1) = none ∧
      ((⟨RBNode.node Color.black RBNode.nil 1 [⟨"A", "A"⟩] RBNode.nil, 1⟩ :
        Tree).remove 1).size = 1 - vs.length) ∧
    (lookup (⟨RBNode.node Color.black RBNode.nil 1 [⟨"A", "A"⟩] RBNode.nil, 1⟩ :
        Tree).root 1 = none →
      (⟨RBNode.node Color.black RBNode.nil 1 [⟨"A", "A"⟩] RBNode.nil, 1⟩ :
        Tree).remove 1 = ⟨RBNode.node Color.black RBNode.nil 1 [⟨"A", "A"⟩] RBNode.nil, 1⟩)) :=
  have hinv : Inv ⟨RBNode.node Color.black RBNode.nil 1 [⟨"A", "A"⟩] RBNode.nil, 1⟩ :=
    ⟨⟨1, Balanced.black Balanced.nil Balanced.nil⟩, by decide, by decide, by decide⟩
  ⟨hinv, claim_C4_remove hinv⟩

/-- C5: after every public mutating operation, `Size()` equals the sum of
the value-list lengths over all reachable nodes, and it is 0 exactly when
the tree has no nodes. -/
theorem claim_C5_size (ops : List Op) :
    (run ops).size = sumVals (run ops).root ∧
    ((run ops).size = 0 ↔ (run ops).root = RBNode.nil) := by
  obtain ⟨hbal, ho, hsz, hne⟩ := inv_run ops
  refine ⟨hsz, ?_, ?_⟩
  · intro h0
    by_contra hroot
    have := sumVals_pos hne hroot
    omega
  · intro h0
    rw [hsz, h0]
    rfl

/-- C6: `Min()` and `Max()` descend all-left resp. all-right; on a
non-empty invariant-satisfying tree they return a present key (with
exactly that key's value list) that bounds every key in the tree from
below resp. above, and on the empty tree both report absence. -/
theorem claim_C6_min_max {t : Tree} (hi : Inv t) :
    (t.root = RBNode.nil → t.minPair = none ∧ t.maxPair = none) ∧
    (t.root ≠ RBNode.nil →
      ∃ kmin vsmin kmax vsmax,
        t.minPair = some (kmin, vsmin) ∧ t.maxPair = some (kmax, vsmax) ∧
        lookup t.root kmin = some vsmin ∧ lookup t.root kmax = some vsmax ∧
        ∀ k, k ∈ keysOf t.root → kmin ≤ k ∧ k ≤ kmax) := by
  obtain ⟨_, ho, _, _⟩ := hi
  constructor
  · intro h0
    constructor
    · simp [Tree.minPair, h0, leftmostNode]
    · simp [Tree.maxPair, h0, rightmostNode]
  · intro hne
    obtain ⟨c1, kmin, vsmin, r1, rest1, hlm, hio1⟩ := leftmostNode_spec t.root hne
    obtain ⟨c2, l2, kmax, vsmax, rest2, hrm, hio2⟩ := rightmostNode_spec t.root hne
    refine ⟨kmin, vsmin, kmax, vsmax, ?_, ?_, ?_, ?_, ?_⟩
    · simp [Tree.minPair, hlm]
    · simp [Tree.maxPair, hrm]
    · exact mem_lookup t.root kmin ho (by rw [hio1]; simp)
    · exact mem_lookup t.root kmax ho (by rw [hio2]; simp)
    · intro k hk
      obtain ⟨p, hp, hpk⟩ := List.mem_map.mp hk
      have hsorted := (orderedB_iff t.root).mp ho
      constructor
      · rw [hio1] at hp
        rcases List.mem_cons.mp hp with he | hrest
        · rw [← hpk, he]
        · have hs1 : keySorted ((kmin, vsmin) :: rest1) := hio1 ▸ hsorted
          rw [keySorted, List.pairwise_cons] at hs1
          have := hs1.1 p hrest
          omega
      · rw [hio2] at hp
        rcases List.mem_append.mp hp with hrest | he
        · have hs2 : keySorted (rest2 ++ [(kmax, vsmax)]) := hio2 ▸ hsorted
          have := (List.pairwise_append.mp hs2).2.2 p hrest (kmax, vsmax) (by simp)
          omega
        · have : p = (kmax, vsmax) := by simpa using he
          rw [← hpk, this]

/-- C6 witness: the three-node tree with keys 1, 2, 3. -/
theorem claim_C6_min_max_witness :
    Inv ⟨RBNode.node Color.black
        (RBNode.node Color.red RBNode.nil 1 [⟨"A", "A"⟩] RBNode.nil) 2 [⟨"B", "B"⟩]
        (RBNode.node Color.red RBNode.nil 3 [⟨"C", "C"⟩] RBNode.nil), 3⟩ ∧
    ((⟨RBNode.node Color.black
        (RBNode.node Color.red RBNode.nil 1 [⟨"A", "A"⟩] RBNode.nil) 2 [⟨"B", "B"⟩]
        (RBNode.node Color.red RBNode.nil 3 [⟨"C", "C"⟩] RBNode.nil), 3⟩ : Tree).root
        ≠ RBNode.nil →
      ∃ kmin vsmin kmax vsmax,
        (⟨RBNode.node Color.black
          (RBNode.node Color.red RBNode.nil 1 [⟨"A", "A"⟩] RBNode.nil) 2 [⟨"B", "B"⟩]
          (RBNode.node Color.red RBNode.nil 3 [⟨"C", "C"⟩] RBNode.nil), 3⟩ :
            Tree).minPair = some (kmin, vsmin) ∧
        (⟨RBNode.node Color.black
          (RBNode.node Color.red RBNode.nil 1 [⟨"A", "A"⟩] RBNode.nil) 2 [⟨"B", "B"⟩]
          (RBNode.node Color.red RBNode.nil 3 [⟨"C", "C"⟩] RBNode.nil), 3⟩ :
            Tree).maxPair = some (kmax, vsmax) ∧
        lookup (⟨RBNode.node Color.black
          (RBNode.node Color.red RBNode.nil 1 [⟨"A", "A"⟩] RBNode.nil) 2 [⟨"B", "B"⟩]
          (RBNode.node Color.red RBNode.nil 3 [⟨"C", "C"⟩] RBNode.nil), 3⟩ :
            Tree).root kmin = some vsmin ∧
        lookup (⟨RBNode.node Color.black
          (RBNode.node Color.red RBNode.nil 1 [⟨"A", "A"⟩] RBNode.nil) 2 [⟨"B", "B"⟩]
          (RBNode.node Color.red RBNode.nil 3 [⟨"C", "C"⟩] RBNode.nil), 3⟩ :
            Tree).root kmax = some vsmax ∧
        ∀ k, k ∈ keysOf (⟨RBNode.node Color.black
          (RBNode.node Color.red RBNode.nil 1 [⟨"A", "A"⟩] RBNode.nil) 2 [⟨"B", "B"⟩]
          (RBNode.node Color.red RBNode.nil 3 [⟨"C", "C"⟩] RBNode.nil), 3⟩ :
            Tree).root → kmin ≤ k ∧ k ≤ kmax) :=
  have hinv : Inv ⟨RBNode.node Color.black
      (RBNode.node Color.red RBNode.nil 1 [⟨"A", "A"⟩] RBNode.nil) 2 [⟨"B", "B"⟩]
      (RBNode.node Color.red RBNode.nil 3 [⟨"C", "C"⟩] RBNode.nil), 3⟩ :=
    ⟨⟨1, Balanced.black (Balanced.red Balanced.nil Balanced.nil)
        (Balanced.red Balanced.nil Balanced.nil)⟩, by decide, by decide, by decide⟩
  ⟨hinv, (claim_C6_min_max hinv).2⟩

/-- C7: starting from any invariant-satisfying tree with `N` distinct
keys, `N` successive `PopMin` calls return exactly the keys in strictly
ascending order and `N` successive `PopMax` calls return them in strictly
descending order; after the `N` calls the tree reports empty, and before
them it never does. -/
theorem claim_C7_pop_loops {t : Tree} {N : Nat} (hi : Inv t)
    (hN : N = (inorder t.root).length) :
    popMinKeys N t = keysOf t.root ∧
    popMaxKeys N t = (keysOf t.root).reverse ∧
    List.Pairwise (· < ·) (keysOf t.root) ∧
    (popMinIter N t).empty = true ∧ (popMaxIter N t).empty = true ∧
    (∀ m, m < N → (popMinIter m t).empty = false) ∧
    (∀ m, m < N → (popMaxIter m t).empty = false) := by
  obtain ⟨hminK, hminE, hminNE⟩ := popMin_run N t hi hN
  obtain ⟨hmaxK, hmaxE, hmaxNE⟩ := popMax_run N t hi hN
  refine ⟨hminK, hmaxK, ?_, ?_, ?_, ?_, ?_⟩
  · have := (orderedB_iff t.root).mp hi.2.1
    rw [keysOf]
    exact List.pairwise_map.mpr this
  · exact (empty_iff_root_nil (inv_popMinIter N t hi)).mpr hminE
  · exact (empty_iff_root_nil (inv_popMaxIter N t hi)).mpr hmaxE
  · intro m hm
    have := hminNE m hm
    cases he : (popMinIter m t).empty with
    | false => rfl
    | true => exact absurd ((empty_iff_root_nil (inv_popMinIter m t hi)).mp he) this
  · intro m hm
    have := hmaxNE m hm
    cases he : (popMaxIter m t).empty with
    | false => rfl
    | true => exact absurd ((empty_iff_root_nil (inv_popMaxIter m t hi)).mp he) this

/-- C7 witness: the three-node tree with keys 1, 2, 3 and `N = 3`. -/
theorem claim_C7_pop_loops_witness :
    Inv ⟨RBNode.node Color.black
        (RBNode.node Color.red RBNode.nil 1 [⟨"A", "A"⟩] RBNode.nil) 2 [⟨"B", "B"⟩]
        (RBNode.node Color.red RBNode.nil 3 [⟨"C", "C"⟩] RBNode.nil), 3⟩ ∧
    3 = (inorder (⟨RBNode.node Color.black
        (RBNode.node Color.red RBNode.nil 1 [⟨"A", "A"⟩] RBNode.nil) 2 [⟨"B", "B"⟩]
        (RBNode.node Color.red RBNode.nil 3 [⟨"C", "C"⟩] RBNode.nil), 3⟩ :
          Tree).root).length ∧
    popMinKeys 3 ⟨RBNode.node Color.black
        (RBNode.node Color.red RBNode.nil 1 [⟨"A", "A"⟩] RBNode.nil) 2 [⟨"B", "B"⟩]
        (RBNode.node Color.red RBNode.nil 3 [⟨"C", "C"⟩] RBNode.nil), 3⟩ =
      keysOf (⟨RBNode.node Color.black
        (RBNode.node Color.red RBNode.nil 1 [⟨"A", "A"⟩] RBNode.nil) 2 [⟨"B", "B"⟩]
        (RBNode.node Color.red RBNode.nil 3 [⟨"C", "C"⟩] RBNode.nil), 3⟩ :
          Tree).root ∧
    (popMinIter 3 ⟨RBNode.node Color.black
        (RBNode.node Color.red RBNode.nil 1 [⟨"A", "A"⟩] RBNode.nil) 2 [⟨"B", "B"⟩]
        (RBNode.node Color.red RBNode.nil 3 [⟨"C", "C"⟩] RBNode.nil), 3⟩).empty
      = true :=
  have hinv : Inv ⟨RBNode.node Color.black
      (RBNode.node Color.red RBNode.nil 1 [⟨"A", "A"⟩] RBNode.nil) 2 [⟨"B", "B"⟩]
      (RBNode.node Color.red RBNode.nil 3 [⟨"C", "C"⟩] RBNode.nil), 3⟩ :=
    ⟨⟨1, Balanced.black (Balanced.red Balanced.nil Balanced.nil)
        (Balanced.red Balanced.nil Balanced.nil)⟩, by decide, by decide, by decide⟩
  have hc := claim_C7_pop_loops hinv (by decide)
  ⟨hinv, by decide, hc.1, hc.2.2.2.1⟩

/-- C8: on an ordered tree, `Floor(key)` reports absence when no key is at
most `key`, and returns exactly the value list of the greatest key that is
at most `key`; `Ceiling(key)` mirrors this with the least key at least
`key`. -/
theorem claim_C8_floor_ceiling {t : Tree} (ho : orderedB t.root = true) (key : Int) :
    ((∀ p ∈ inorder t.root, ¬ p.1 ≤ key) → t.floor key = none) ∧
    (∀ kf vsf, (kf, vsf) ∈ inorder t.root → kf ≤ key →
      (∀ p ∈ inorder t.root, p.1 ≤ key → p.1 ≤ kf) → t.floor key = some vsf) ∧
    ((∀ p ∈ inorder t.root, ¬ key ≤ p.1) → t.ceiling key = none) ∧
    (∀ kc vsc, (kc, vsc) ∈ inorder t.root → key ≤ kc →
      (∀ p ∈ inorder t.root, key ≤ p.1 → kc ≤ p.1) → t.ceiling key = some vsc) := by
  refine ⟨?_, ?_, ?_, ?_⟩
  · intro hall
    exact floorLoop_none t.root key none hall
  · intro kf vsf hm hle hmax
    exact floorLoop_found t.root key kf vsf none ho hm hle hmax
  · intro hall
    exact ceilingLoop_none t.root key none hall
  · intro kc vsc hm hle hmin
    exact ceilingLoop_found t.root key kc vsc none ho hm hle hmin

/-- C8 witness: the three-node tree with keys 1, 2, 3 and query key 2. -/
theorem claim_C8_floor_ceiling_witness :
    orderedB (⟨RBNode.node Color.black
        (RBNode.node Color.red RBNode.nil 1 [⟨"A", "A"⟩] RBNode.nil) 2 [⟨"B", "B"⟩]
        (RBNode.node Color.red RBNode.nil 3 [⟨"C", "C"⟩] RBNode.nil), 3⟩ :
          Tree).root = true ∧
    (⟨RBNode.node Color.black
        (RBNode.node Color.red RBNode.nil 1 [⟨"A", "A"⟩] RBNode.nil) 2 [⟨"B", "B"⟩]
        (RBNode.node Color.red RBNode.nil 3 [⟨"C", "C"⟩] RBNode.nil), 3⟩ :
          Tree).floor 2 = some [⟨"B", "B"⟩] ∧
    (⟨RBNode.node Color.black
        (RBNode.node Color.red RBNode.nil 1 [⟨"A", "A"⟩] RBNode.nil) 2 [⟨"B", "B"⟩]
        (RBNode.node Color.red RBNode.nil 3 [⟨"C", "C"⟩] RBNode.nil), 3⟩ :
          Tree).ceiling 2 = some [⟨"B", "B"⟩] :=
  have hc := claim_C8_floor_ceiling (t := ⟨RBNode.node Color.black
      (RBNode.node Color.red RBNode.nil 1 [⟨"A", "A"⟩] RBNode.nil) 2 [⟨"B", "B"⟩]
      (RBNode.node Color.red RBNode.nil 3 [⟨"C", "C"⟩] RBNode.nil), 3⟩)
    (by decide) 2
  ⟨by decide,
    hc.2.1 2 [⟨"B", "B"⟩] (by simp [inorder]) (by omega) (by decide),
    hc.2.2.2 2 [⟨"B", "B"⟩] (by simp [inorder]) (by omega) (by decide)⟩

/-- C9: the nil-argument guards: `Put` with an absent key or value,
`Remove` with an absent key, and `Get` with an absent key leave the tree
untouched resp. report not-found, exactly as the source's early returns
do. -/
theorem claim_C9_nil_guards (t : Tree) (k : Int) (v : Value) :
    t.putG none (some v) = t ∧ t.putG (some k) none = t ∧
    t.putG none none = t ∧ t.removeG none = t ∧ t.get none = none :=
  ⟨rfl, rfl, rfl, rfl, rfl⟩

/-- C10: after any sequence of public mutating operations every node's
value list is non-empty, so a successful `Get` never returns an empty
list. -/
theorem claim_C10_values_nonempty (ops : List Op) (k : Option Int) :
    valsNonempty (run ops).root = true ∧ (run ops).get k ≠ some [] := by
  obtain ⟨_, _, _, hne⟩ := inv_run ops
  refine ⟨hne, ?_⟩
  cases k with
  | none => simp [Tree.get]
  | some key =>
      simp only [Tree.get]
      intro hlk
      have hmem := lookup_mem (run ops).root key hlk
      have := (valsNonempty_iff (run ops).root).mp hne (key, []) hmem
      exact this rfl

end RBT

